import Mathlib

/-!
Disk-space eviction of the XRootD file cache.

A shallow embedding of the purge machinery of
`src/XrdFileCache/XrdFileCacheFactory.cc`:

* `FPurgeState` with `checkFile` (the bounded oldest-first selector),
* `FillFileMapRecurse` (the recursive directory scan),
* `Factory::CacheDirCleanup` (occupancy test, byte target, block budget and
  the eviction loop).

Modelling conventions.

* `time_t`, `int` and the `long long` accumulators of the selector are
  unbounded integers; the one product of `CacheDirCleanup` whose size matters
  (`sP.Total * bytesToRemoveLong`) is reduced with `wrap64`.
* `float` and `double` values are the rationals they denote; every `float` or
  `double` operation of the source is the exact operation followed by
  `roundTo 24` or `roundTo 53` (IEEE 754 round to nearest, ties to even,
  evaluated in the declared type). The exponent range is not limited: for
  `0 <= Free`, `0 < Total < 2^63` and watermarks in `[0,1]` no value of
  `CacheDirCleanup` overflows, and no result that is rounded is subnormal.
* A C string is a list of characters; `std::string::size` is its length.
* A `while` loop that the source does not bound takes a step budget and
  returns `Res.outOfFuel` when the budget is used up.
-/

namespace XrdFileCache

/-! ## Results of budgeted runs -/

/-- Result of running a fragment of the program under a step budget. -/
inductive Res (α : Type) where
  | ok (a : α)
  | outOfFuel
  | undefinedBehaviour
  deriving DecidableEq, Repr

/-- Sequencing of budgeted runs. -/
def Res.bind {α β : Type} : Res α → (α → Res β) → Res β
  | .ok a, f => f a
  | .outOfFuel, _ => .outOfFuel
  | .undefinedBehaviour, _ => .undefinedBehaviour

/-! ## `FPurgeState` -/

/-- A path, as the characters of a C string. -/
abbrev Path := List Char

/-- The value type `FPurgeState::FS` of the selection map. -/
structure FS where
  path : Path
  nBlck : Int
  deriving DecidableEq, Repr

/-- The type `FPurgeState::map_t`, a `std::multimap<time_t, FS>`: the entries
in iteration order (ascending key, equal keys in insertion order). -/
abbrev map_t := List (Int × FS)

/-- The operation `std::multimap::insert`: the new entry goes to the upper bound of
its key, that is before the first entry with a strictly larger key. -/
def map_t.insert : map_t → Int → FS → map_t
  | [], k, v => [(k, v)]
  | e :: rest, k, v =>
    if k < e.1 then (k, v) :: e :: rest else e :: map_t.insert rest k v

/-- The operation `std::multimap::equal_range`: the run of entries with the given key. -/
def map_t.equal_range (m : map_t) (k : Int) : map_t :=
  m.filter (fun e => e.1 = k)

/-- The class `FPurgeState`. -/
structure FPurgeState where
  fmap : map_t
  nBlckReq : Int
  nBlckAccum : Int
  deriving DecidableEq, Repr

/-- The constructor `FPurgeState(long long iNBlckReq)`. -/
def FPurgeState.new (iNBlckReq : Int) : FPurgeState :=
  { fmap := [], nBlckReq := iNBlckReq, nBlckAccum := 0 }

/-- The loop `while (nBlckAccum > nBlckReq)` of `checkFile`: each round takes
the key of `fmap.begin()` and subtracts the block count of every entry of that
key's `equal_range` from the accumulator. `fmap` is not changed. The first
argument after the map and the budget bounds the number of rounds. -/
def trimLoop (fmap : map_t) (nBlckReq : Int) : Nat → Int → Res Int
  | 0, nBlckAccum => if nBlckAccum > nBlckReq then .outOfFuel else .ok nBlckAccum
  | fuel + 1, nBlckAccum =>
    if nBlckAccum > nBlckReq then
      match fmap with
      | [] => .undefinedBehaviour
      | e :: _ =>
        trimLoop fmap nBlckReq fuel
          ((fmap.equal_range e.1).foldl (fun acc it2 => acc - it2.2.nBlck) nBlckAccum)
    else .ok nBlckAccum

/-- The body of the `if` of `checkFile`: insert, add, trim. -/
def FPurgeState.accept (fuel : Nat) (s : FPurgeState) (iTime : Int) (iPath : Path)
    (iNBlck : Int) : Res FPurgeState :=
  let fmap := s.fmap.insert iTime ⟨iPath, iNBlck⟩
  (trimLoop fmap s.nBlckReq fuel (s.nBlckAccum + iNBlck)).bind fun acc =>
    .ok { fmap := fmap, nBlckReq := s.nBlckReq, nBlckAccum := acc }

/-- The method `FPurgeState::checkFile`. The test `iTime < fmap.rbegin()->first` is
only evaluated when `nBlckAccum < nBlckReq` is false; on an empty map it
dereferences `rend()`. -/
def FPurgeState.checkFile (fuel : Nat) (s : FPurgeState) (iTime : Int) (iPath : Path)
    (iNBlck : Int) : Res FPurgeState :=
  if s.nBlckAccum < s.nBlckReq then s.accept fuel iTime iPath iNBlck
  else
    match s.fmap.getLast? with
    | none => .undefinedBehaviour
    | some e => if iTime < e.1 then s.accept fuel iTime iPath iNBlck else .ok s

/-- A candidate as the scan hands it to `checkFile`. -/
structure Candidate where
  iTime : Int
  iPath : Path
  iNBlck : Int
  deriving DecidableEq, Repr

/-- The map entry made from a candidate. -/
def Candidate.entry (c : Candidate) : Int × FS := (c.iTime, ⟨c.iPath, c.iNBlck⟩)

/-- Offer the candidates one by one, in list order, each call with the same
budget for its trimming loop. -/
def checkFiles (fuel : Nat) : FPurgeState → List Candidate → Res FPurgeState
  | s, [] => .ok s
  | s, c :: cs => (s.checkFile fuel c.iTime c.iPath c.iNBlck).bind fun s1 => checkFiles fuel s1 cs

/-! ## `FillFileMapRecurse` -/

/-- The C function `strncmp` on NUL-terminated strings: compare at most `n` characters, the
end of a string counting as the character 0; the result is the difference of
the first two characters that differ, 0 when there is none. -/
def strncmp : List Char → List Char → Nat → Int
  | _, _, 0 => 0
  | [], [], _ + 1 => 0
  | [], b :: _, _ + 1 => 0 - (b.toNat : Int)
  | a :: _, [], _ + 1 => (a.toNat : Int)
  | a :: as, b :: bs, n + 1 =>
    if a = b then strncmp as bs n else (a.toNat : Int) - (b.toNat : Int)

/-- The guard `strncmp("..", &buff[0], 2) && strncmp(".", &buff[0], 1)` under
which `FillFileMapRecurse` looks at an entry at all. -/
def entryGuard (buff : List Char) : Bool :=
  decide (strncmp ['.', '.'] buff 2 ≠ 0) && decide (strncmp ['.'] buff 1 ≠ 0)

/-- The test that sends an entry to the sidecar branch: `fname_len > InfoExtLen
&& strncmp(&buff[fname_len - InfoExtLen], m_infoExtension, InfoExtLen) == 0`. -/
def isInfoName (infoExt buff : List Char) : Bool :=
  decide (buff.length > infoExt.length) &&
    decide (strncmp (buff.drop (buff.length - infoExt.length)) infoExt infoExt.length = 0)

mutual
/-- One entry of a directory as the storage backend shows it: the name that
`Readdir` writes to `buff`; what the sidecar accessor answers when the entry is
opened as a file (`some (accessTime, nDownloadedBlocks)` when
`GetLatestDetachTime` succeeds); whether `Opendir` on it succeeds; and the
listing read from it when it does. -/
inductive DirEntry where
  | mk (name : List Char) (info : Option (Int × Int)) (opens : Bool) (entries : DirList)
/-- The entries that successive `Readdir` calls return. -/
inductive DirList where
  | nil
  | cons (e : DirEntry) (rest : DirList)
end

/-- The selector together with the record of which paths the scan opened as
sidecar files (`fh->Open`) and on which it called `Opendir`. -/
structure ScanState where
  purgeState : FPurgeState
  fileOpens : List Path
  dirOpens : List Path
  deriving DecidableEq, Repr

/-- The function `FillFileMapRecurse(iOssDF, path, purgeState)`, with `infoExt` for
`XrdFileCache::Info::m_infoExtension`. The `Readdir` loop ends at the end of
the listing or at the first empty name. -/
def FillFileMapRecurse (infoExt : List Char) (fuel : Nat) :
    DirList → Path → ScanState → Res ScanState
  | .nil, _, s => .ok s
  | .cons (.mk buff info opens entries) rest, path, s =>
    let np := path ++ ['/'] ++ buff
    if buff.length = 0 then .ok s
    else if entryGuard buff then
      if isInfoName infoExt buff then
        let s1 := { s with fileOpens := s.fileOpens ++ [np] }
        match info with
        | some (accessTime, nDownloadedBlocks) =>
          (s1.purgeState.checkFile fuel accessTime np nDownloadedBlocks).bind fun ps =>
            FillFileMapRecurse infoExt fuel rest path { s1 with purgeState := ps }
        | none => FillFileMapRecurse infoExt fuel rest path s1
      else
        let s1 := { s with dirOpens := s.dirOpens ++ [np] }
        if opens then
          (FillFileMapRecurse infoExt fuel entries np s1).bind fun s2 =>
            FillFileMapRecurse infoExt fuel rest path s2
        else FillFileMapRecurse infoExt fuel rest path s1
    else FillFileMapRecurse infoExt fuel rest path s

/-! ## `Factory::CacheDirCleanup` -/

/-- The constant `s_diskSpacePrecisionFactor`. -/
def s_diskSpacePrecisionFactor : Int := 10000000

/-- A signed 64-bit result: the representative of `x` modulo `2^64` in
`[-2^63, 2^63)`. -/
def wrap64 (x : Int) : Int := (x + 2 ^ 63) % 2 ^ 64 - 2 ^ 63

/-- The conversion `static_cast<long long>` of a fraction: truncation toward zero. -/
def castLongLong (x : ℚ) : Int := Int.tdiv x.num x.den

/-- Rounding of a fraction to the nearest integer, a fraction half-way between
two integers going to the even one. -/
def roundHalfEven (m : ℚ) : Int :=
  if m - (⌊m⌋ : ℚ) < 1 / 2 then ⌊m⌋
  else if 1 / 2 < m - (⌊m⌋ : ℚ) then ⌊m⌋ + 1
  else if ⌊m⌋ % 2 = 0 then ⌊m⌋ else ⌊m⌋ + 1

/-- Rounding to the nearest binary floating-point number with a significand of
`p` bits, ties to even: 0 stays 0, and a value `x` with `2^e <= |x| < 2^(e+1)`
goes to the nearest multiple of `2^(e - p + 1)`. With `p = 24` this is the
result of a `float` operation, with `p = 53` of a `double` operation. -/
def roundTo (p : Nat) (x : ℚ) : ℚ :=
  if x = 0 then 0
  else (roundHalfEven (x / (2 : ℚ) ^ (Int.log 2 |x| - (p : Int) + 1)) : ℚ)
    * (2 : ℚ) ^ (Int.log 2 |x| - (p : Int) + 1)

/-- The fields of `Configuration` that the cleanup reads. The structure is
declared in a header that is not part of the source at hand, so the type of
the two watermarks is a parameter: `wmPrec` is the significand width of that
type, 24 when `m_hwm` and `m_lwm` are `float`, 53 when they are `double`;
`m_hwm` and `m_lwm` are the values stored. -/
structure Configuration where
  m_hwm : ℚ
  m_lwm : ℚ
  m_bufferSize : Int
  m_cache_dir : Path
  wmPrec : Nat

/-- The fields of `XrdOssVSInfo` that the cleanup reads. -/
structure XrdOssVSInfo where
  Total : Int
  Free : Int

/-- The local `float oc = 1 - float(sP.Free)/(sP.Total)`: both operands are
converted to `float`, the quotient and the difference are `float`
operations. -/
def oc (sP : XrdOssVSInfo) : ℚ :=
  roundTo 24 (1 - roundTo 24 (roundTo 24 (sP.Free : ℚ) / roundTo 24 (sP.Total : ℚ)))

/-- The local `bytesToRemoveLong = static_cast<long long>((oc - m_lwm) *
static_cast<float>(s_diskSpacePrecisionFactor))`: the difference and the
product are operations of the type of `m_lwm`. -/
def bytesToRemoveLong (cfg : Configuration) (sP : XrdOssVSInfo) : Int :=
  castLongLong
    (roundTo cfg.wmPrec
      (roundTo cfg.wmPrec (oc sP - cfg.m_lwm) * roundTo 24 (s_diskSpacePrecisionFactor : ℚ)))

/-- The value of `bytesToRemove` after the occupancy test: 0, or
`(sP.Total * bytesToRemoveLong) / s_diskSpacePrecisionFactor` in `long long`
arithmetic. -/
def bytesToRemove (cfg : Configuration) (sP : XrdOssVSInfo) : Int :=
  if oc sP > cfg.m_hwm then
    Int.tdiv (wrap64 (sP.Total * bytesToRemoveLong cfg sP)) s_diskSpacePrecisionFactor
  else 0

/-- The local `nReq = (long long) ((bytesToRemove*1.4)/m_bufferSize)`: the
literal `1.4` is the `double` nearest to 7/5, both integers are converted to
`double`, the product and the quotient are `double` operations. -/
def nReq (cfg : Configuration) (bytesToRemove : Int) : Int :=
  castLongLong
    (roundTo 53
      (roundTo 53 (roundTo 53 (bytesToRemove : ℚ) * roundTo 53 (7 / 5))
        / roundTo 53 (cfg.m_bufferSize : ℚ)))

/-- What `Stat` sees: the size of each existing file. -/
abbrev Storage := Path → Option Nat

/-- The call `oss->Unlink(path)` on an existing file: the file is gone, every other
path is as before. -/
def Storage.unlink (st : Storage) (path : Path) : Storage :=
  fun q => if q = path then none else st q

/-- The state of the eviction loop: the storage, the remaining `bytesToRemove`,
and the record of the entries whose files were stat-ed and of the `Unlink`
calls, both in order. -/
structure EvictState where
  storage : Storage
  bytesToRemove : Int
  handled : List (Int × FS)
  unlinked : List Path

/-- One `if (oss->Stat(path, &fstat) == XrdOssOK) { bytesToRemove -=
fstat.st_size; oss->Unlink(path); }` block. -/
def statUnlink (path : Path) (s : EvictState) : EvictState :=
  match s.storage path with
  | some st_size =>
    { s with storage := s.storage.unlink path,
             bytesToRemove := s.bytesToRemove - (st_size : Int),
             unlinked := s.unlinked ++ [path] }
  | none => s

/-- The data-file path `path.substr(0, path.size() - strlen(m_infoExtension))`.
When the path is shorter than the extension the unsigned count wraps to a
huge value and `substr` returns the whole path. -/
def dataPath (infoExt : List Char) (path : Path) : Path :=
  if infoExt.length ≤ path.length then path.take (path.length - infoExt.length) else path

/-- The body of the inner `for (it2 ...)` loop: the info file, then the data
file. -/
def evictEntry (infoExt : List Char) (s : EvictState) (it2 : Int × FS) : EvictState :=
  statUnlink (dataPath infoExt it2.2.path)
    (statUnlink it2.2.path { s with handled := s.handled ++ [it2] })

/-- The inner loop over one `equal_range`. -/
def evictGroup (infoExt : List Char) (ret : map_t) (s : EvictState) : EvictState :=
  ret.foldl (evictEntry infoExt) s

/-- The outer loop `for (it = fmap.begin(); it != fmap.end(); ++it)`: the
second list is what is left from `it` on. Each round runs the inner loop over
`fmap.equal_range(it->first)` and then tests `bytesToRemove <= 0`. -/
def evictLoop (infoExt : List Char) (fmap : map_t) : map_t → EvictState → EvictState
  | [], s => s
  | it :: rest, s =>
    let s1 := evictGroup infoExt (fmap.equal_range it.1) s
    if s1.bytesToRemove ≤ 0 then s1 else evictLoop infoExt fmap rest s1

/-- How one pass of the `while (1)` body ends. -/
inductive CycleEnd where
  | exit1
  | sleep (bytesToRemove : Int) (scan : Option ScanState) (after : EvictState)

/-- One pass of the body of `while (1)` in `Factory::CacheDirCleanup`.
`statVS` is the answer of `StatVS` (`none` when it fails), `root` the listing of
`m_cache_dir` (`none` when `Opendir` fails), `storage` what `Stat` sees.
The `bytesToRemove` reported is the value computed by the occupancy test. -/
def CacheDirCleanup (cfg : Configuration) (infoExt : List Char) (fuel : Nat)
    (statVS : Option XrdOssVSInfo) (root : Option DirList) (storage : Storage) :
    Res CycleEnd :=
  match statVS with
  | none => .ok .exit1
  | some sP =>
    let b := bytesToRemove cfg sP
    let idle : EvictState :=
      { storage := storage, bytesToRemove := b, handled := [], unlinked := [] }
    if b > 0 then
      match root with
      | some listing =>
        (FillFileMapRecurse infoExt fuel listing cfg.m_cache_dir
            { purgeState := FPurgeState.new (nReq cfg b), fileOpens := [], dirOpens := [] }).bind
          fun s => .ok (.sleep b (some s) (evictLoop infoExt s.purgeState.fmap s.purgeState.fmap idle))
      | none => .ok (.sleep b none idle)
    else .ok (.sleep b none idle)

/-! ## Auxiliary notions used in the statements -/

/-- What holds of the selector between two calls of `checkFile` when every
block count offered is at least 1. -/
structure SelInv (req : Int) (s : FPurgeState) : Prop where
  req_eq : s.nBlckReq = req
  blocks : ∀ e ∈ s.fmap, 1 ≤ e.2.nBlck
  accum_le : s.nBlckAccum ≤ req
  empty : s.fmap = [] → s.nBlckAccum = 0

/-- The blocks of the candidates whose access time is at most `T`. -/
def blocksUpTo (cands : List Candidate) (T : Int) : Int :=
  ((cands.filter (fun c => c.iTime ≤ T)).map (fun c => c.iNBlck)).sum

/-- The cutoff of the specification: `T` is the smallest access time of a
candidate such that the candidates not newer than `T` total at least `req`
blocks. -/
def IsCutoff (cands : List Candidate) (req : Int) (T : Int) : Prop :=
  (∃ c ∈ cands, c.iTime = T) ∧ req ≤ blocksUpTo cands T ∧
    ∀ c ∈ cands, c.iTime < T → blocksUpTo cands c.iTime < req

/-- The state in which the eviction loop starts. -/
def EvictState.start (storage : Storage) (bytesToRemove : Int) : EvictState :=
  { storage := storage, bytesToRemove := bytesToRemove, handled := [], unlinked := [] }

/-- The distinct keys of a key sequence, in order of first appearance. -/
def groupKeys : List Int → List Int
  | [] => []
  | k :: ks => k :: (groupKeys ks).filter (fun j => decide (j ≠ k))

/-- The timestamp-groups of the specification: for each distinct key, in map
order, all the entries of that key. -/
def groups (fmap : map_t) : List map_t :=
  (groupKeys (fmap.map Prod.fst)).map fmap.equal_range

/-- The groups `gs` handled one after the other, each to its end, without any
stop test. -/
def afterGroups (infoExt : List Char) (gs : List map_t) (s : EvictState) : EvictState :=
  gs.foldl (fun s g => evictGroup infoExt g s) s

/-- The executor of the specification: handle the groups in order, each to its
end, and stop after the first group at whose end `bytesToRemove <= 0`. -/
def evictGroupsSpec (infoExt : List Char) : List map_t → EvictState → EvictState
  | [], s => s
  | g :: gs, s =>
    let s1 := evictGroup infoExt g s
    if s1.bytesToRemove ≤ 0 then s1 else evictGroupsSpec infoExt gs s1

/-- Neither the info file nor the data file of any entry of `g` exists. -/
def Gone (infoExt : List Char) (g : map_t) (st : Storage) : Prop :=
  ∀ e ∈ g, st e.2.path = none ∧ st (dataPath infoExt e.2.path) = none

/-- Two eviction states agree on the storage, on `bytesToRemove` and on the
`Unlink` calls, and have handled the same entries. -/
def Sim (s t : EvictState) : Prop :=
  s.storage = t.storage ∧ s.bytesToRemove = t.bytesToRemove ∧ s.unlinked = t.unlinked ∧
    ∀ x, x ∈ s.handled ↔ x ∈ t.handled

/-- The info path and the data path of every entry of `g`, in the order in
which the inner loop stats them. -/
def pairPaths (infoExt : List Char) : map_t → List Path
  | [] => []
  | e :: g => e.2.path :: dataPath infoExt e.2.path :: pairPaths infoExt g

/-- The distinct paths of a sequence, in order of first appearance. -/
def distinctPaths : List Path → List Path
  | [] => []
  | p :: ps => p :: (distinctPaths ps).filter (fun q => decide (q ≠ p))

/-- The size of the file at `p`, 0 when there is none. -/
def Storage.sizeOf (st : Storage) (p : Path) : Int := ((st p).getD 0 : Nat)

/-- The bytes freed by deleting the files found at `paths`, each file once. -/
def freedBytes (st : Storage) (paths : List Path) : Int :=
  ((distinctPaths paths).map st.sizeOf).sum

/-- The files found at `paths`, each once, in order of first appearance. -/
def existingPaths (st : Storage) (paths : List Path) : List Path :=
  (distinctPaths paths).filter (fun p => (st p).isSome)

/-- The storage without the files at `paths`; every other path is as before. -/
def Storage.removeAll (st : Storage) (paths : List Path) : Storage :=
  fun q => if q ∈ paths then none else st q

/-- The `Stat`/`Unlink` block run on each path of a sequence in turn. -/
def unlinkAll (paths : List Path) (s : EvictState) : EvictState :=
  paths.foldl (fun s p => statUnlink p s) s

/-- Two eviction states agree on the storage, on `bytesToRemove` and on the
`Unlink` calls. -/
def Core (s t : EvictState) : Prop :=
  s.storage = t.storage ∧ s.bytesToRemove = t.bytesToRemove ∧ s.unlinked = t.unlinked

/-! ## Data of the worked examples of the eviction loop -/

/-- A selection with `a.i` and `b.i` at time 1 and `c.i` at time 2. -/
def twoGroupMap : map_t :=
  [(1, ⟨['a', '.', 'i'], 3⟩), (1, ⟨['b', '.', 'i'], 2⟩), (2, ⟨['c', '.', 'i'], 1⟩)]

/-- A storage holding `a.i`, `a`, `b.i`, `b`, `c.i` and `c`, 4 bytes each. -/
def twoGroupStorage : Storage :=
  fun p =>
    if p ∈ [['a', '.', 'i'], ['a'], ['b', '.', 'i'], ['b'], ['c', '.', 'i'], ['c']] then some 4
    else none

/-- A selection in which the data path of the older entry, `a.i.i` without the
suffix `.i`, is the info path `a.i` of the newer entry. -/
def overlapMap : map_t :=
  [(1, ⟨['a', '.', 'i', '.', 'i'], 1⟩), (2, ⟨['a', '.', 'i'], 1⟩)]

/-- A storage holding `a.i.i`, `a.i` and `a`, 5 bytes each. -/
def overlapStorage : Storage :=
  fun p => if p ∈ [['a', '.', 'i', '.', 'i'], ['a', '.', 'i'], ['a']] then some 5 else none

/-! ## Rounding -/

theorem roundHalfEven_error (m : ℚ) : |(roundHalfEven m : ℚ) - m| ≤ 1 / 2 := by
  have h1 : (⌊m⌋ : ℚ) ≤ m := Int.floor_le m
  have h2 : m < (⌊m⌋ : ℚ) + 1 := Int.lt_floor_add_one m
  unfold roundHalfEven
  split_ifs with ha hb hc
  · rw [abs_le]; constructor <;> linarith
  · rw [abs_le]; push_cast; constructor <;> linarith
  · rw [abs_le]; constructor <;> linarith
  · rw [abs_le]; push_cast; constructor <;> linarith

theorem roundHalfEven_of_near (q : ℚ) (m : Int) (h : |q - m| < 1 / 2) :
    roundHalfEven q = m := by
  rw [abs_lt] at h
  unfold roundHalfEven
  by_cases hq : (m : ℚ) ≤ q
  · have hf : ⌊q⌋ = m := by
      rw [Int.floor_eq_iff]; constructor <;> linarith
    rw [hf, if_pos (by linarith)]
  · have hf : ⌊q⌋ = m - 1 := by
      rw [Int.floor_eq_iff]; push_cast; constructor <;> linarith
    rw [hf]
    push_cast
    rw [if_neg (by linarith), if_pos (by linarith)]
    ring

theorem roundHalfEven_tie_even (m : Int) (hm : m % 2 = 0) :
    roundHalfEven ((m : ℚ) + 1 / 2) = m := by
  have hf : ⌊(m : ℚ) + 1 / 2⌋ = m := by
    rw [Int.floor_eq_iff]; constructor <;> linarith
  unfold roundHalfEven
  rw [hf, if_neg (by linarith), if_neg (by linarith), if_pos hm]

theorem roundHalfEven_tie_odd (m : Int) (hm : m % 2 = 1) :
    roundHalfEven ((m : ℚ) + 1 / 2) = m + 1 := by
  have hf : ⌊(m : ℚ) + 1 / 2⌋ = m := by
    rw [Int.floor_eq_iff]; constructor <;> linarith
  unfold roundHalfEven
  rw [hf, if_neg (by linarith), if_neg (by linarith), if_neg (by omega)]

theorem log_two_eq (x : ℚ) (e : Int) (hlo : (2 : ℚ) ^ e ≤ x) (hhi : x < (2 : ℚ) ^ (e + 1)) :
    Int.log 2 x = e := by
  have hx : 0 < x := lt_of_lt_of_le (by positivity) hlo
  have h1 : e ≤ Int.log 2 x := (Int.zpow_le_iff_le_log (by norm_num) hx).mp (by exact_mod_cast hlo)
  have h2 : Int.log 2 x < e + 1 := (Int.lt_zpow_iff_log_lt (by norm_num) hx).mp (by exact_mod_cast hhi)
  omega

theorem roundTo_of_bounds (p : Nat) (x : ℚ) (e m : Int) (hlo : (2 : ℚ) ^ e ≤ x)
    (hhi : x < (2 : ℚ) ^ (e + 1))
    (hm : roundHalfEven (x / (2 : ℚ) ^ (e - (p : Int) + 1)) = m) :
    roundTo p x = (m : ℚ) * (2 : ℚ) ^ (e - (p : Int) + 1) := by
  have hx : 0 < x := lt_of_lt_of_le (by positivity) hlo
  unfold roundTo
  rw [if_neg hx.ne', abs_of_pos hx, log_two_eq x e hlo hhi, hm]

theorem roundTo_error (p : Nat) (x : ℚ) (hx : 0 < x) :
    |roundTo p x - x| ≤ x * (1 / 2) ^ p := by
  unfold roundTo
  rw [if_neg hx.ne', abs_of_pos hx]
  set e := Int.log 2 x with he
  have hu : (0 : ℚ) < (2 : ℚ) ^ (e - (p : Int) + 1) := by positivity
  have herr := roundHalfEven_error (x / (2 : ℚ) ^ (e - (p : Int) + 1))
  have hle : (2 : ℚ) ^ e ≤ x := by
    have := Int.zpow_log_le_self (b := 2) (by norm_num) hx
    exact_mod_cast this
  have hsplit : (2 : ℚ) ^ (e - (p : Int) + 1) = (2 : ℚ) ^ e * (1 / 2) ^ p * 2 := by
    rw [zpow_add₀ (by norm_num), zpow_sub₀ (by norm_num), zpow_natCast, zpow_one]
    field_simp
  have key : (↑(roundHalfEven (x / (2 : ℚ) ^ (e - (p : Int) + 1))) : ℚ)
        * (2 : ℚ) ^ (e - (p : Int) + 1) - x
      = ((↑(roundHalfEven (x / (2 : ℚ) ^ (e - (p : Int) + 1))) : ℚ)
          - x / (2 : ℚ) ^ (e - (p : Int) + 1)) * (2 : ℚ) ^ (e - (p : Int) + 1) := by
    field_simp
  rw [key, abs_mul, abs_of_pos hu]
  have hp : (0 : ℚ) < (1 / 2) ^ p := by positivity
  calc _ ≤ (1 / 2) * (2 : ℚ) ^ (e - (p : Int) + 1) := by
        apply mul_le_mul_of_nonneg_right herr hu.le
    _ = (2 : ℚ) ^ e * (1 / 2) ^ p := by rw [hsplit]; ring
    _ ≤ x * (1 / 2) ^ p := by apply mul_le_mul_of_nonneg_right hle hp.le

theorem roundTo_near (p : Nat) (x : ℚ) (e m : Int) (v : ℚ) (hlo : (2 : ℚ) ^ e ≤ x)
    (hhi : x < (2 : ℚ) ^ (e + 1))
    (hnear : |x / (2 : ℚ) ^ (e - (p : Int) + 1) - (m : ℚ)| < 1 / 2)
    (hv : (m : ℚ) * (2 : ℚ) ^ (e - (p : Int) + 1) = v) : roundTo p x = v := by
  rw [roundTo_of_bounds p x e m hlo hhi (roundHalfEven_of_near _ m hnear), hv]

theorem roundTo_tie_even (p : Nat) (x : ℚ) (e m : Int) (v : ℚ) (hlo : (2 : ℚ) ^ e ≤ x)
    (hhi : x < (2 : ℚ) ^ (e + 1))
    (htie : x / (2 : ℚ) ^ (e - (p : Int) + 1) = (m : ℚ) + 1 / 2) (hm : m % 2 = 0)
    (hv : (m : ℚ) * (2 : ℚ) ^ (e - (p : Int) + 1) = v) : roundTo p x = v := by
  rw [roundTo_of_bounds p x e m hlo hhi (by rw [htie]; exact roundHalfEven_tie_even m hm), hv]

theorem roundTo_tie_odd (p : Nat) (x : ℚ) (e m : Int) (v : ℚ) (hlo : (2 : ℚ) ^ e ≤ x)
    (hhi : x < (2 : ℚ) ^ (e + 1))
    (htie : x / (2 : ℚ) ^ (e - (p : Int) + 1) = (m : ℚ) + 1 / 2) (hm : m % 2 = 1)
    (hv : ((m + 1 : Int) : ℚ) * (2 : ℚ) ^ (e - (p : Int) + 1) = v) : roundTo p x = v := by
  rw [roundTo_of_bounds p x e (m + 1) hlo hhi
    (by rw [htie]; exact roundHalfEven_tie_odd m hm), hv]

theorem roundTo_lower (p : Nat) (x : ℚ) (hx : 0 < x) :
    x * (1 - (1 / 2) ^ p) ≤ roundTo p x := by
  have h := (abs_le.mp (roundTo_error p x hx)).1
  linarith

theorem roundTo_upper (p : Nat) (x : ℚ) (hx : 0 < x) :
    roundTo p x ≤ x * (1 + (1 / 2) ^ p) := by
  have h := (abs_le.mp (roundTo_error p x hx)).2
  linarith

theorem half_pow_le_half (p : Nat) (hp : 1 ≤ p) : ((1 : ℚ) / 2) ^ p ≤ 1 / 2 := by
  calc ((1 : ℚ) / 2) ^ p ≤ ((1 : ℚ) / 2) ^ 1 :=
        pow_le_pow_of_le_one (by norm_num) (by norm_num) hp
    _ = 1 / 2 := by norm_num

theorem roundTo_pos (p : Nat) (hp : 1 ≤ p) (x : ℚ) (hx : 0 < x) : 0 < roundTo p x := by
  have h1 := roundTo_lower p x hx
  have h2 := half_pow_le_half p hp
  have h3 : 0 < x * (1 - (1 / 2) ^ p) := mul_pos hx (by linarith)
  linarith

/-! ## Arithmetic of the byte target and the block budget -/

theorem castLongLong_of_nonneg {x : ℚ} (hx : 0 ≤ x) : castLongLong x = ⌊x⌋ := by
  unfold castLongLong
  rw [Rat.floor_def, Int.tdiv_eq_ediv (Rat.num_nonneg.mpr hx) (Int.ofNat_nonneg _)]

theorem wrap64_of_range {x : Int} (h0 : 0 ≤ x) (h1 : x < 2 ^ 63) : wrap64 x = x := by
  unfold wrap64
  rw [Int.emod_eq_of_lt (by omega) (by omega)]
  omega

theorem roundTo_factor : roundTo 24 (s_diskSpacePrecisionFactor : ℚ) = 10000000 := by
  have h : ((s_diskSpacePrecisionFactor : Int) : ℚ) = 10000000 := by
    simp [s_diskSpacePrecisionFactor]
  rw [h]
  exact roundTo_near 24 _ 23 10000000 _ (by norm_num) (by norm_num) (by norm_num [abs_lt])
    (by norm_num)

theorem oc_eval (sP : XrdOssVSInfo) (f t q o : ℚ) (hf : roundTo 24 (sP.Free : ℚ) = f)
    (ht : roundTo 24 (sP.Total : ℚ) = t) (hq : roundTo 24 (f / t) = q)
    (ho : roundTo 24 (1 - q) = o) : oc sP = o := by
  unfold oc
  rw [hf, ht, hq, ho]

theorem bytesToRemoveLong_eval (cfg : Configuration) (sP : XrdOssVSInfo) (o d P : ℚ) (L : Int)
    (ho : oc sP = o) (hd : roundTo cfg.wmPrec (o - cfg.m_lwm) = d)
    (hP : roundTo cfg.wmPrec (d * 10000000) = P) (hP0 : 0 ≤ P) (hL : ⌊P⌋ = L) :
    bytesToRemoveLong cfg sP = L := by
  unfold bytesToRemoveLong
  rw [ho, hd, roundTo_factor, hP, castLongLong_of_nonneg hP0, hL]

theorem nReq_eval (cfg : Configuration) (b : Int) (B c M S v : ℚ) (n : Int)
    (hB : roundTo 53 (b : ℚ) = B) (hc : roundTo 53 (7 / 5) = c) (hM : roundTo 53 (B * c) = M)
    (hS : roundTo 53 (cfg.m_bufferSize : ℚ) = S) (hv : roundTo 53 (M / S) = v) (hv0 : 0 ≤ v)
    (hn : ⌊v⌋ = n) : nReq cfg b = n := by
  unfold nReq
  rw [hB, hc, hM, hS, hv, castLongLong_of_nonneg hv0, hn]

theorem bytesToRemove_of_exact (cfg : Configuration) (sP : XrdOssVSInfo)
    (hhw : cfg.m_hwm < oc sP) (hL0 : 0 ≤ bytesToRemoveLong cfg sP) (hT : 0 ≤ sP.Total)
    (hexact : sP.Total * bytesToRemoveLong cfg sP < 2 ^ 63) :
    bytesToRemove cfg sP = (sP.Total * bytesToRemoveLong cfg sP) / 10000000 := by
  have hp : 0 ≤ sP.Total * bytesToRemoveLong cfg sP := mul_nonneg hT hL0
  unfold bytesToRemove
  rw [if_pos hhw, wrap64_of_range hp hexact,
    Int.tdiv_eq_ediv hp (by simp [s_diskSpacePrecisionFactor])]
  rfl

/-- C10, evaluated on a 4 TiB pool with 219902325555 bytes free (occupancy
0.95) and watermarks 0.9 and 0.7. With `float` watermarks `bytesToRemoveLong`
is 2500000 and the exact product is 10995116277760000000, above `2^63 - 1`;
the 64-bit product is negative, `bytesToRemove` comes out as -745162779594
instead of the exact quotient 1099511627776, and the cycle starts no scan.
With `double` watermarks `bytesToRemoveLong` is 2499999 and the product wraps
in the same way. -/
theorem C10_product_wraps :
    bytesToRemoveLong
      ⟨15099494 / 16777216, 11744051 / 16777216, 1048576, [], 24⟩ ⟨4398046511104, 219902325555⟩ = 2500000 ∧
    (4398046511104 : Int) * 2500000 = 10995116277760000000 ∧
    (2 : Int) ^ 63 - 1 < 10995116277760000000 ∧
    wrap64 ((4398046511104 : Int) * 2500000) = -7451627795949551616 ∧
    bytesToRemove
      ⟨15099494 / 16777216, 11744051 / 16777216, 1048576, [], 24⟩ ⟨4398046511104, 219902325555⟩ = -745162779594 ∧
    ((4398046511104 : Int) * 2500000) / 10000000 = 1099511627776 ∧
    (∀ (infoExt : List Char) (fuel : Nat) (root : Option DirList) (storage : Storage),
      CacheDirCleanup
      ⟨15099494 / 16777216, 11744051 / 16777216, 1048576, [], 24⟩ infoExt fuel (some ⟨4398046511104, 219902325555⟩) root storage
        = .ok (.sleep (-745162779594) none
            { storage := storage, bytesToRemove := -745162779594, handled := [],
              unlinked := [] })) ∧
    bytesToRemoveLong
      ⟨8106479329266893 / 9007199254740992, 3152519739159347 / 4503599627370496, 1048576, [], 53⟩ ⟨4398046511104, 219902325555⟩ = 2499999 ∧
    (2 : Int) ^ 63 - 1 < 4398046511104 * 2499999 ∧
    bytesToRemove
      ⟨8106479329266893 / 9007199254740992, 3152519739159347 / 4503599627370496, 1048576, [], 53⟩ ⟨4398046511104, 219902325555⟩ = -745163219399 := by
  have hoc : oc ⟨4398046511104, 219902325555⟩ = (15938355 / 16777216) :=
    oc_eval _ 219902328832 4398046511104 (13421773 / 268435456) (15938355 / 16777216)
      (roundTo_near 24 _ 37 13421773 _
        (by norm_num) (by norm_num) (by norm_num [abs_lt]) (by norm_num))
      (roundTo_near 24 _ 42 8388608 _
        (by norm_num) (by norm_num) (by norm_num [abs_lt]) (by norm_num))
      (roundTo_near 24 _ (-5) 13421773 _
        (by norm_num) (by norm_num) (by norm_num [abs_lt]) (by norm_num))
      (roundTo_near 24 _ (-1) 15938355 _
        (by norm_num) (by norm_num) (by norm_num [abs_lt]) (by norm_num))
  have hL : bytesToRemoveLong ⟨15099494 / 16777216, 11744051 / 16777216, 1048576, [], 24⟩ ⟨4398046511104, 219902325555⟩ = 2500000 :=
    bytesToRemoveLong_eval _ _ (15938355 / 16777216) (1 / 4) 2500000 2500000 hoc
      (roundTo_near 24 _ (-2) 8388608 _
        (by norm_num) (by norm_num) (by norm_num [abs_lt]) (by norm_num))
      (roundTo_near 24 _ 21 10000000 _
        (by norm_num) (by norm_num) (by norm_num [abs_lt]) (by norm_num))
      (by norm_num) (by norm_num [Int.floor_eq_iff])
  have hLd : bytesToRemoveLong
      ⟨8106479329266893 / 9007199254740992, 3152519739159347 / 4503599627370496, 1048576, [], 53⟩
      ⟨4398046511104, 219902325555⟩ = 2499999 :=
    bytesToRemoveLong_eval _ _ (15938355 / 16777216) (1125899853155533 / 4503599627370496) (5368708864000001 / 2147483648) 2499999 hoc
      (roundTo_near 53 _ (-3) 9007198825244264 _
        (by norm_num) (by norm_num) (by norm_num [abs_lt]) (by norm_num))
      (roundTo_near 53 _ 21 5368708864000001 _
        (by norm_num) (by norm_num) (by norm_num [abs_lt]) (by norm_num))
      (by norm_num) (by norm_num [Int.floor_eq_iff])
  have hw : wrap64 ((4398046511104 : Int) * 2500000) = -7451627795949551616 := by
    unfold wrap64; norm_num
  have hb : bytesToRemove
      ⟨15099494 / 16777216, 11744051 / 16777216, 1048576, [], 24⟩ ⟨4398046511104, 219902325555⟩ = -745162779594 := by
    unfold bytesToRemove
    rw [if_pos (by rw [hoc]; norm_num), hL, hw]
    decide
  have hwd : wrap64 ((4398046511104 : Int) * 2499999) = -7451632193996062720 := by
    unfold wrap64; norm_num
  have hbd : bytesToRemove
      ⟨8106479329266893 / 9007199254740992, 3152519739159347 / 4503599627370496, 1048576, [], 53⟩ ⟨4398046511104, 219902325555⟩ = -745163219399 := by
    unfold bytesToRemove
    rw [if_pos (by rw [hoc]; norm_num), hLd, hwd]
    decide
  refine ⟨hL, by norm_num, by norm_num, hw, hb, by norm_num, ?_, hLd, by norm_num, hbd⟩
  intro infoExt fuel root storage
  simp only [CacheDirCleanup, hb]
  rfl

/-- C2, as stated, fails: on a pool of 22369627 bytes with 16777221 free the
exact occupancy `1 - free/total` is below the high watermark 0.25, but `float`
rounding of the two sizes gives `oc = 0.25 + 2^-24`; the cycle computes
`bytesToRemove = 2796203`, scans the tree and unlinks the info and the data
file of its one candidate. -/
theorem C2_rounding_triggers_purge :
    (0 : Int) < 22369627 ∧
    1 - (16777221 : ℚ) / 22369627 ≤ 1 / 4 ∧
    oc ⟨22369627, 16777221⟩ = 4194305 / 16777216 ∧
    bytesToRemove ⟨1 / 4, 1 / 8, 1048576, ['c'], 24⟩ ⟨22369627, 16777221⟩ = 2796203 ∧
    ∃ scan after,
      CacheDirCleanup ⟨1 / 4, 1 / 8, 1048576, ['c'], 24⟩ ['.', 'i'] 8
          (some ⟨22369627, 16777221⟩)
          (some (.cons (.mk ['a', '.', 'i'] (some (1, 4)) false .nil) .nil))
          (fun p => if p = ['c', '/', 'a', '.', 'i'] ∨ p = ['c', '/', 'a'] then some 7 else none)
        = .ok (.sleep 2796203 (some scan) after) ∧
      after.unlinked = [['c', '/', 'a', '.', 'i'], ['c', '/', 'a']] ∧
      after.storage ['c', '/', 'a', '.', 'i'] = none ∧
      after.storage ['c', '/', 'a'] = none := by
  have hoc : oc ⟨22369627, 16777221⟩ = (4194305 / 16777216) :=
    oc_eval _ 16777220 22369628 (12582911 / 16777216) (4194305 / 16777216)
      (roundTo_tie_even 24 _ 24 8388610 _
        (by norm_num) (by norm_num) (by norm_num) (by decide) (by norm_num))
      (roundTo_tie_odd 24 _ 24 11184813 _
        (by norm_num) (by norm_num) (by norm_num) (by decide) (by norm_num))
      (roundTo_near 24 _ (-1) 12582911 _
        (by norm_num) (by norm_num) (by norm_num [abs_lt]) (by norm_num))
      (roundTo_near 24 _ (-2) 8388610 _
        (by norm_num) (by norm_num) (by norm_num [abs_lt]) (by norm_num))
  have hL : bytesToRemoveLong ⟨1 / 4, 1 / 8, 1048576, ['c'], 24⟩ ⟨22369627, 16777221⟩ = 1250000 :=
    bytesToRemoveLong_eval _ _ (4194305 / 16777216) (2097153 / 16777216) (10000005 / 8) 1250000 hoc
      (roundTo_near 24 _ (-3) 8388612 _
        (by norm_num) (by norm_num) (by norm_num [abs_lt]) (by norm_num))
      (roundTo_near 24 _ 20 10000005 _
        (by norm_num) (by norm_num) (by norm_num [abs_lt]) (by norm_num))
      (by norm_num) (by norm_num [Int.floor_eq_iff])
  have hn : nReq ⟨1 / 4, 1 / 8, 1048576, ['c'], 24⟩ 2796203 = 3 :=
    nReq_eval _ _ 2796203 (3152519739159347 / 2251799813685248) (8406720306583961 / 2147483648) 1048576 (8406720306583961 / 2251799813685248) 3
      (roundTo_near 53 _ 21 6004800218988544 _
        (by norm_num) (by norm_num) (by norm_num [abs_lt]) (by norm_num))
      (roundTo_near 53 _ 0 6305039478318694 _
        (by norm_num) (by norm_num) (by norm_num [abs_lt]) (by norm_num))
      (roundTo_near 53 _ 21 8406720306583961 _
        (by norm_num) (by norm_num) (by norm_num [abs_lt]) (by norm_num))
      (roundTo_near 53 _ 20 4503599627370496 _
        (by norm_num) (by norm_num) (by norm_num [abs_lt]) (by norm_num))
      (roundTo_near 53 _ 1 8406720306583961 _
        (by norm_num) (by norm_num) (by norm_num [abs_lt]) (by norm_num))
      (by norm_num) (by norm_num [Int.floor_eq_iff])
  have hb : bytesToRemove ⟨1 / 4, 1 / 8, 1048576, ['c'], 24⟩ ⟨22369627, 16777221⟩
      = 2796203 := by
    rw [bytesToRemove_of_exact _ _ (by rw [hoc]; norm_num) (by rw [hL]; norm_num)
      (by norm_num) (by rw [hL]; norm_num), hL]
    norm_num
  refine ⟨by norm_num, by norm_num, hoc, hb, ?_⟩
  simp only [CacheDirCleanup, hb, hn]
  exact ⟨_, _, rfl, by decide, by decide, by decide⟩

/-- C2, amended. When the value `oc` that the code computes in `float`
arithmetic is at most the high watermark, one pass of the cleanup loop
computes `bytesToRemove = 0`, starts no scan, issues no `Unlink` and leaves the
storage as it was, whatever the tree and the budget. -/
theorem C2_idle_cycle (cfg : Configuration) (sP : XrdOssVSInfo) (infoExt : List Char)
    (fuel : Nat) (root : Option DirList) (storage : Storage)
    (hT : 0 < sP.Total) (hoc : oc sP ≤ cfg.m_hwm) :
    bytesToRemove cfg sP = 0 ∧
      CacheDirCleanup cfg infoExt fuel (some sP) root storage
        = .ok (.sleep 0 none
            { storage := storage, bytesToRemove := 0, handled := [], unlinked := [] }) := by
  have _ := hT
  have hb : bytesToRemove cfg sP = 0 := by
    unfold bytesToRemove
    rw [if_neg (not_lt.mpr hoc)]
  refine ⟨hb, ?_⟩
  simp only [CacheDirCleanup, hb]
  rfl

/-- C2, amended, on a pool of 100 bytes with 50 free (`oc = 0.5`) and a high
watermark of 0.875, with a cache tree holding one sidecar and its data
file. -/
theorem C2_idle_cycle_witness :
    oc ⟨100, 50⟩ = 1 / 2 ∧
    bytesToRemove ⟨7 / 8, 3 / 4, 1048576, ['c'], 24⟩ ⟨100, 50⟩ = 0 ∧
      CacheDirCleanup ⟨7 / 8, 3 / 4, 1048576, ['c'], 24⟩ ['.', 'i'] 8 (some ⟨100, 50⟩)
          (some (.cons (.mk ['a', '.', 'i'] (some (1, 4)) false .nil) .nil))
          (fun p => if p = ['c', '/', 'a', '.', 'i'] ∨ p = ['c', '/', 'a'] then some 7 else none)
        = .ok (.sleep 0 none
            { storage :=
                fun p => if p = ['c', '/', 'a', '.', 'i'] ∨ p = ['c', '/', 'a'] then some 7 else none,
              bytesToRemove := 0, handled := [], unlinked := [] }) := by
  have hoc : oc ⟨100, 50⟩ = (1 / 2) :=
    oc_eval _ 50 100 (1 / 2) (1 / 2)
      (roundTo_near 24 _ 5 13107200 _
        (by norm_num) (by norm_num) (by norm_num [abs_lt]) (by norm_num))
      (roundTo_near 24 _ 6 13107200 _
        (by norm_num) (by norm_num) (by norm_num [abs_lt]) (by norm_num))
      (roundTo_near 24 _ (-1) 8388608 _
        (by norm_num) (by norm_num) (by norm_num [abs_lt]) (by norm_num))
      (roundTo_near 24 _ (-1) 8388608 _
        (by norm_num) (by norm_num) (by norm_num [abs_lt]) (by norm_num))
  exact ⟨hoc, C2_idle_cycle ⟨7 / 8, 3 / 4, 1048576, ['c'], 24⟩ ⟨100, 50⟩ ['.', 'i'] 8 _ _
    (by decide) (by rw [hoc]; norm_num)⟩

theorem roundTo_zero (p : Nat) : roundTo p 0 = 0 := by
  simp [roundTo]

theorem half_pow_le_one (p : Nat) : ((1 : ℚ) / 2) ^ p ≤ 1 :=
  pow_le_one₀ (by norm_num) (by norm_num)

theorem roundTo_lower_of_nonneg (p : Nat) (x : ℚ) (hx : 0 ≤ x) :
    x * (1 - (1 / 2) ^ p) ≤ roundTo p x := by
  rcases hx.eq_or_lt with h | h
  · rw [← h, roundTo_zero]; simp
  · exact roundTo_lower p x h

theorem roundTo_upper_of_nonneg (p : Nat) (x : ℚ) (hx : 0 ≤ x) :
    roundTo p x ≤ x * (1 + (1 / 2) ^ p) := by
  rcases hx.eq_or_lt with h | h
  · rw [← h, roundTo_zero]; simp
  · exact roundTo_upper p x h

theorem roundTo_nonneg (p : Nat) (x : ℚ) (hx : 0 ≤ x) : 0 ≤ roundTo p x := by
  have h1 := roundTo_lower_of_nonneg p x hx
  have h2 := half_pow_le_one p
  have h3 : 0 ≤ x * (1 - (1 / 2) ^ p) := mul_nonneg hx (by linarith)
  linarith

/-- C3, as stated, fails in both directions. On a pool of 2^30 bytes with
2^27 - 1 free and watermarks 0.875 and 0.75 the exact occupancy is above the
high watermark, but `float(sP.Free)` is 2^27, `oc` is exactly 0.875 and
`bytesToRemove` stays 0, short of the exact target by 2^27 + 1 bytes. On a pool
of 2^40 bytes with 2^38 + 2^14 - 1 free and watermarks 0.625 and 0.5 the
product is exact and `bytesToRemove = 2^38` exceeds the exact target. -/
theorem C3_bounds_fail :
    ((7 : ℚ) / 8 < 1 - 134217727 / 1073741824 ∧
      bytesToRemove ⟨7 / 8, 3 / 4, 1048576, [], 24⟩ ⟨1073741824, 134217727⟩ = 0 ∧
      ¬ ((1 - (134217727 : ℚ) / 1073741824 - 3 / 4) * 1073741824
          - ((0 : Int) : ℚ) < 1073741824 / 10000000 + 1)) ∧
    ((5 : ℚ) / 8 < 1 - 274877923327 / 1099511627776 ∧
      (1099511627776 : Int)
          * bytesToRemoveLong ⟨5 / 8, 1 / 2, 1048576, [], 24⟩ ⟨1099511627776, 274877923327⟩
        < 2 ^ 63 ∧
      bytesToRemove ⟨5 / 8, 1 / 2, 1048576, [], 24⟩ ⟨1099511627776, 274877923327⟩
        = 274877906944 ∧
      ¬ (((274877906944 : Int) : ℚ)
          ≤ (1 - (274877923327 : ℚ) / 1099511627776 - 1 / 2) * 1099511627776)) := by
  have hoc1 : oc ⟨1073741824, 134217727⟩ = (7 / 8) :=
    oc_eval _ 134217728 1073741824 (1 / 8) (7 / 8)
      (roundTo_near 24 _ 26 16777216 _
        (by norm_num) (by norm_num) (by norm_num [abs_lt]) (by norm_num))
      (roundTo_near 24 _ 30 8388608 _
        (by norm_num) (by norm_num) (by norm_num [abs_lt]) (by norm_num))
      (roundTo_near 24 _ (-3) 8388608 _
        (by norm_num) (by norm_num) (by norm_num [abs_lt]) (by norm_num))
      (roundTo_near 24 _ (-1) 14680064 _
        (by norm_num) (by norm_num) (by norm_num [abs_lt]) (by norm_num))
  have hoc2 : oc ⟨1099511627776, 274877923327⟩ = (3 / 4) :=
    oc_eval _ 274877906944 1099511627776 (1 / 4) (3 / 4)
      (roundTo_near 24 _ 38 8388608 _
        (by norm_num) (by norm_num) (by norm_num [abs_lt]) (by norm_num))
      (roundTo_near 24 _ 40 8388608 _
        (by norm_num) (by norm_num) (by norm_num [abs_lt]) (by norm_num))
      (roundTo_near 24 _ (-2) 8388608 _
        (by norm_num) (by norm_num) (by norm_num [abs_lt]) (by norm_num))
      (roundTo_near 24 _ (-1) 12582912 _
        (by norm_num) (by norm_num) (by norm_num [abs_lt]) (by norm_num))
  have hL2 : bytesToRemoveLong ⟨5 / 8, 1 / 2, 1048576, [], 24⟩ ⟨1099511627776, 274877923327⟩ = 2500000 :=
    bytesToRemoveLong_eval _ _ (3 / 4) (1 / 4) 2500000 2500000 hoc2
      (roundTo_near 24 _ (-2) 8388608 _
        (by norm_num) (by norm_num) (by norm_num [abs_lt]) (by norm_num))
      (roundTo_near 24 _ 21 10000000 _
        (by norm_num) (by norm_num) (by norm_num [abs_lt]) (by norm_num))
      (by norm_num) (by norm_num [Int.floor_eq_iff])
  have hb1 : bytesToRemove ⟨7 / 8, 3 / 4, 1048576, [], 24⟩ ⟨1073741824, 134217727⟩ = 0 := by
    unfold bytesToRemove
    rw [if_neg (by rw [hoc1]; norm_num)]
  have hb2 : bytesToRemove ⟨5 / 8, 1 / 2, 1048576, [], 24⟩ ⟨1099511627776, 274877923327⟩
      = 274877906944 := by
    rw [bytesToRemove_of_exact _ _ (by rw [hoc2]; norm_num) (by rw [hL2]; norm_num)
      (by norm_num) (by rw [hL2]; norm_num), hL2]
    norm_num
  refine ⟨⟨by norm_num, hb1, by norm_num⟩, ⟨by norm_num, by rw [hL2]; norm_num, hb2, by norm_num⟩⟩

/-- C3, amended. When the `float` value `oc` is above the high watermark and
the product `sP.Total * bytesToRemoveLong` is exact, `bytesToRemove` is
`floor(total * L / 10^7)` with `L` the truncation of the rounded product
`fl(fl(oc - lwm) * 10^7)`. With `r = 2^-wmPrec` the relative error of one
rounding, it is at most `(oc - lwm) * total * (1 + r)^2` and falls short of
`(oc - lwm) * total * (1 - r)^2` by less than `total / 10^7 + 1`. -/
theorem C3_bytesToRemove_bounds (cfg : Configuration) (sP : XrdOssVSInfo)
    (hT : 0 < sP.Total) (hhw : cfg.m_hwm < oc sP) (hlw : cfg.m_lwm < cfg.m_hwm)
    (hexact : sP.Total * bytesToRemoveLong cfg sP < 2 ^ 63) :
    bytesToRemove cfg sP
        = ⌊((sP.Total : ℚ)
            * (⌊roundTo cfg.wmPrec (roundTo cfg.wmPrec (oc sP - cfg.m_lwm) * 10000000)⌋ : ℚ))
            / 10000000⌋ ∧
      (bytesToRemove cfg sP : ℚ)
        ≤ (oc sP - cfg.m_lwm) * (sP.Total : ℚ) * (1 + (1 / 2) ^ cfg.wmPrec) ^ 2 ∧
      (oc sP - cfg.m_lwm) * (sP.Total : ℚ) * (1 - (1 / 2) ^ cfg.wmPrec) ^ 2
          - (bytesToRemove cfg sP : ℚ)
        < (sP.Total : ℚ) / 10000000 + 1 := by
  have hx : 0 < oc sP - cfg.m_lwm := by linarith
  have hr0 : (0 : ℚ) ≤ (1 / 2) ^ cfg.wmPrec := by positivity
  have hr1 := half_pow_le_one cfg.wmPrec
  set r : ℚ := (1 / 2) ^ cfg.wmPrec with hr
  set x : ℚ := oc sP - cfg.m_lwm with hxdef
  have hd0 : 0 ≤ roundTo cfg.wmPrec x := roundTo_nonneg _ _ hx.le
  have hd1 := roundTo_lower_of_nonneg cfg.wmPrec x hx.le
  have hd2 := roundTo_upper_of_nonneg cfg.wmPrec x hx.le
  set d : ℚ := roundTo cfg.wmPrec x with hddef
  have hdF : 0 ≤ d * 10000000 := mul_nonneg hd0 (by norm_num)
  have hP0 : 0 ≤ roundTo cfg.wmPrec (d * 10000000) := roundTo_nonneg _ _ hdF
  have hP1 := roundTo_lower_of_nonneg cfg.wmPrec (d * 10000000) hdF
  have hP2 := roundTo_upper_of_nonneg cfg.wmPrec (d * 10000000) hdF
  set P : ℚ := roundTo cfg.wmPrec (d * 10000000) with hPdef
  have hL : bytesToRemoveLong cfg sP = ⌊P⌋ := by
    unfold bytesToRemoveLong
    rw [roundTo_factor, castLongLong_of_nonneg hP0]
  have hL0 : 0 ≤ bytesToRemoveLong cfg sP := by
    rw [hL]; exact Int.floor_nonneg.mpr hP0
  have hb := bytesToRemove_of_exact cfg sP hhw hL0 hT.le hexact
  rw [hL] at hb
  have hfl : ⌊((sP.Total : ℚ) * ((⌊P⌋ : Int) : ℚ)) / 10000000⌋ = (sP.Total * ⌊P⌋) / 10000000 := by
    have := Rat.floor_intCast_div_natCast (sP.Total * ⌊P⌋) 10000000
    simpa using this
  have hTq : (0 : ℚ) < (sP.Total : ℚ) := by exact_mod_cast hT
  have hLle : ((⌊P⌋ : Int) : ℚ) ≤ P := Int.floor_le P
  have hLgt : P < ((⌊P⌋ : Int) : ℚ) + 1 := Int.lt_floor_add_one P
  have hb1 : ((bytesToRemove cfg sP : Int) : ℚ)
      ≤ ((sP.Total : ℚ) * ((⌊P⌋ : Int) : ℚ)) / 10000000 := by
    rw [hb, ← hfl]; exact Int.floor_le _
  have hb2 : ((sP.Total : ℚ) * ((⌊P⌋ : Int) : ℚ)) / 10000000
      < ((bytesToRemove cfg sP : Int) : ℚ) + 1 := by
    rw [hb, ← hfl]; exact Int.lt_floor_add_one _
  have hTP : (sP.Total : ℚ) * ((⌊P⌋ : Int) : ℚ) ≤ (sP.Total : ℚ) * P :=
    mul_le_mul_of_nonneg_left hLle hTq.le
  have hTP2 : (sP.Total : ℚ) * (P - 1) < (sP.Total : ℚ) * ((⌊P⌋ : Int) : ℚ) :=
    mul_lt_mul_of_pos_left (by linarith) hTq
  have hTPu : (sP.Total : ℚ) * P ≤ (sP.Total : ℚ) * (d * 10000000 * (1 + r)) :=
    mul_le_mul_of_nonneg_left hP2 hTq.le
  have hTPl : (sP.Total : ℚ) * (d * 10000000 * (1 - r)) ≤ (sP.Total : ℚ) * P :=
    mul_le_mul_of_nonneg_left hP1 hTq.le
  have hTdu : (sP.Total : ℚ) * (1 + r) * d ≤ (sP.Total : ℚ) * (1 + r) * (x * (1 + r)) :=
    mul_le_mul_of_nonneg_left hd2 (mul_nonneg hTq.le (by linarith))
  have hTdl : (sP.Total : ℚ) * (1 - r) * (x * (1 - r)) ≤ (sP.Total : ℚ) * (1 - r) * d :=
    mul_le_mul_of_nonneg_left hd1 (mul_nonneg hTq.le (by linarith))
  refine ⟨by rw [hb, hfl], ?_, ?_⟩
  · have h1 : ((sP.Total : ℚ) * ((⌊P⌋ : Int) : ℚ)) / 10000000
        ≤ (sP.Total : ℚ) * (1 + r) * d := by
      rw [div_le_iff₀ (by norm_num)]
      linarith
    have h2 : (sP.Total : ℚ) * (1 + r) * (x * (1 + r)) = x * (sP.Total : ℚ) * (1 + r) ^ 2 := by
      ring
    linarith
  · have h1 : (sP.Total : ℚ) * (1 - r) * d - (sP.Total : ℚ) / 10000000
        < ((sP.Total : ℚ) * ((⌊P⌋ : Int) : ℚ)) / 10000000 := by
      rw [lt_div_iff₀ (by norm_num)]
      have : ((sP.Total : ℚ) * (1 - r) * d - (sP.Total : ℚ) / 10000000) * 10000000
          = (sP.Total : ℚ) * (d * 10000000 * (1 - r)) - (sP.Total : ℚ) := by
        ring
      rw [this]
      linarith
    have h2 : (sP.Total : ℚ) * (1 - r) * (x * (1 - r)) = x * (sP.Total : ℚ) * (1 - r) ^ 2 := by
      ring
    have h3 : x * (sP.Total : ℚ) * (1 - r) ^ 2 ≤ (sP.Total : ℚ) * (1 - r) * d := by
      rw [← h2]; exact hTdl
    have h4 : x * (sP.Total : ℚ) * (1 - r) ^ 2 - (sP.Total : ℚ) / 10000000
        < ((bytesToRemove cfg sP : Int) : ℚ) + 1 :=
      lt_of_le_of_lt (sub_le_sub_right h3 _) (lt_trans h1 hb2)
    linarith

/-- C3, amended, at the pool of the scenario: total 100 GiB, free 5 GiB,
`float` watermarks 0.9 and 0.7 give `oc = 15938355 / 2^24` (the `float` next to
0.95) and `bytesToRemove` = 25 GiB. -/
theorem C3_bytesToRemove_bounds_witness :
    oc ⟨107374182400, 5368709120⟩ = 15938355 / 16777216 ∧
    bytesToRemove
      ⟨15099494 / 16777216, 11744051 / 16777216, 1048576, [], 24⟩ ⟨107374182400, 5368709120⟩ = 26843545600 ∧
    ((26843545600 : Int) : ℚ)
      ≤ (15938355 / 16777216 - 11744051 / 16777216) * ((107374182400 : Int) : ℚ)
          * (1 + (1 / 2) ^ 24) ^ 2 ∧
    (15938355 / 16777216 - 11744051 / 16777216) * ((107374182400 : Int) : ℚ)
          * (1 - (1 / 2) ^ 24) ^ 2 - ((26843545600 : Int) : ℚ)
      < ((107374182400 : Int) : ℚ) / 10000000 + 1 := by
  have hoc : oc ⟨107374182400, 5368709120⟩ = (15938355 / 16777216) :=
    oc_eval _ 5368709120 107374182400 (13421773 / 268435456) (15938355 / 16777216)
      (roundTo_near 24 _ 32 10485760 _
        (by norm_num) (by norm_num) (by norm_num [abs_lt]) (by norm_num))
      (roundTo_near 24 _ 36 13107200 _
        (by norm_num) (by norm_num) (by norm_num [abs_lt]) (by norm_num))
      (roundTo_near 24 _ (-5) 13421773 _
        (by norm_num) (by norm_num) (by norm_num [abs_lt]) (by norm_num))
      (roundTo_near 24 _ (-1) 15938355 _
        (by norm_num) (by norm_num) (by norm_num [abs_lt]) (by norm_num))
  have hL : bytesToRemoveLong ⟨15099494 / 16777216, 11744051 / 16777216, 1048576, [], 24⟩ ⟨107374182400, 5368709120⟩ = 2500000 :=
    bytesToRemoveLong_eval _ _ (15938355 / 16777216) (1 / 4) 2500000 2500000 hoc
      (roundTo_near 24 _ (-2) 8388608 _
        (by norm_num) (by norm_num) (by norm_num [abs_lt]) (by norm_num))
      (roundTo_near 24 _ 21 10000000 _
        (by norm_num) (by norm_num) (by norm_num [abs_lt]) (by norm_num))
      (by norm_num) (by norm_num [Int.floor_eq_iff])
  have h := C3_bytesToRemove_bounds
      ⟨15099494 / 16777216, 11744051 / 16777216, 1048576, [], 24⟩ ⟨107374182400, 5368709120⟩
    (by norm_num) (by rw [hoc]; norm_num) (by norm_num) (by rw [hL]; norm_num)
  have hb : bytesToRemove
      ⟨15099494 / 16777216, 11744051 / 16777216, 1048576, [], 24⟩ ⟨107374182400, 5368709120⟩ = 26843545600 := by
    rw [bytesToRemove_of_exact _ _ (by rw [hoc]; norm_num) (by rw [hL]; norm_num)
      (by norm_num) (by rw [hL]; norm_num), hL]
    norm_num
  rw [hb, hoc] at h
  exact ⟨hoc, hb, h.2.1, h.2.2⟩

/-- C4, as stated, fails: for `bytesToRemove = 2949120` and a block size of
64 KiB the budget is 62, while `bytesToRemove * 1.4 / block_size` is exactly 63
and so is its ceiling. The `double` product `2949120 * 1.4` is below
`63 * 65536` and the cast truncates. -/
theorem C4_nReq_not_ceil :
    (0 : Int) < 2949120 ∧ (0 : Int) < 65536 ∧
    nReq ⟨1 / 4, 1 / 8, 65536, [], 24⟩ 2949120 = 62 ∧
    ⌈(((2949120 : Int) : ℚ) * (7 / 5)) / ((65536 : Int) : ℚ)⌉ = 63 ∧
    nReq ⟨1 / 4, 1 / 8, 65536, [], 24⟩ 2949120
      ≠ ⌈(((2949120 : Int) : ℚ) * (7 / 5)) / ((65536 : Int) : ℚ)⌉ := by
  have hn : nReq ⟨1 / 4, 1 / 8, 65536, [], 24⟩ 2949120 = 62 :=
    nReq_eval _ _ 2949120 (3152519739159347 / 2251799813685248) (8866461766385663 / 2147483648) 65536 (8866461766385663 / 140737488355328) 62
      (roundTo_near 53 _ 21 6333186975989760 _
        (by norm_num) (by norm_num) (by norm_num [abs_lt]) (by norm_num))
      (roundTo_near 53 _ 0 6305039478318694 _
        (by norm_num) (by norm_num) (by norm_num [abs_lt]) (by norm_num))
      (roundTo_near 53 _ 21 8866461766385663 _
        (by norm_num) (by norm_num) (by norm_num [abs_lt]) (by norm_num))
      (roundTo_near 53 _ 16 4503599627370496 _
        (by norm_num) (by norm_num) (by norm_num [abs_lt]) (by norm_num))
      (roundTo_near 53 _ 5 8866461766385663 _
        (by norm_num) (by norm_num) (by norm_num [abs_lt]) (by norm_num))
      (by norm_num) (by norm_num [Int.floor_eq_iff])
  have hc : ⌈(((2949120 : Int) : ℚ) * (7 / 5)) / ((65536 : Int) : ℚ)⌉ = 63 := by
    norm_num [Int.ceil_eq_iff]
  refine ⟨by norm_num, by norm_num, hn, hc, ?_⟩
  rw [hn, hc]
  decide

/-- C4, amended. The block budget is the truncation of the `double` value
`fl(fl(fl(bytesToRemove) * 1.4) / fl(block_size))`; it is at most
`bytesToRemove * 1.4 / block_size * (1 + 2^-50)` and more than
`bytesToRemove * 1.4 / block_size * (1 - 2^-50) - 1`, with 1.4 taken as 7/5 in
the two bounds. -/
theorem C4_nReq_bounds (cfg : Configuration) (b : Int) (hb : 0 < b)
    (hbs : 0 < cfg.m_bufferSize) :
    nReq cfg b
        = ⌊roundTo 53 (roundTo 53 (roundTo 53 (b : ℚ) * roundTo 53 (7 / 5))
            / roundTo 53 (cfg.m_bufferSize : ℚ))⌋ ∧
      (nReq cfg b : ℚ)
        ≤ ((b : ℚ) * (7 / 5)) / (cfg.m_bufferSize : ℚ) * (1 + 1 / 2 ^ 50) ∧
      ((b : ℚ) * (7 / 5)) / (cfg.m_bufferSize : ℚ) * (1 - 1 / 2 ^ 50) - 1
        < (nReq cfg b : ℚ) := by
  have hbq : (0 : ℚ) < (b : ℚ) := by exact_mod_cast hb
  have hsq : (0 : ℚ) < (cfg.m_bufferSize : ℚ) := by exact_mod_cast hbs
  have hn : nReq cfg b
      = ⌊roundTo 53 (roundTo 53 (roundTo 53 (b : ℚ) * roundTo 53 (7 / 5))
          / roundTo 53 (cfg.m_bufferSize : ℚ))⌋ := by
    unfold nReq
    apply castLongLong_of_nonneg
    apply roundTo_nonneg
    apply div_nonneg
    · apply roundTo_nonneg
      exact mul_nonneg (roundTo_nonneg _ _ hbq.le) (roundTo_nonneg _ _ (by norm_num))
    · exact roundTo_nonneg _ _ hsq.le
  have hB0 := roundTo_pos 53 (by norm_num) (b : ℚ) hbq
  have hB1 := roundTo_lower 53 (b : ℚ) hbq
  have hB2 := roundTo_upper 53 (b : ℚ) hbq
  set B : ℚ := roundTo 53 (b : ℚ) with hBdef
  clear_value B
  have hc0 := roundTo_pos 53 (by norm_num) (7 / 5 : ℚ) (by norm_num)
  have hc1 := roundTo_lower 53 (7 / 5 : ℚ) (by norm_num)
  have hc2 := roundTo_upper 53 (7 / 5 : ℚ) (by norm_num)
  set c : ℚ := roundTo 53 (7 / 5) with hcdef
  clear_value c
  have hBc : 0 < B * c := mul_pos hB0 hc0
  have hM0 := roundTo_pos 53 (by norm_num) (B * c) hBc
  have hM1 := roundTo_lower 53 (B * c) hBc
  have hM2 := roundTo_upper 53 (B * c) hBc
  set M : ℚ := roundTo 53 (B * c) with hMdef
  clear_value M
  have hS0 := roundTo_pos 53 (by norm_num) (cfg.m_bufferSize : ℚ) hsq
  have hS1 := roundTo_lower 53 (cfg.m_bufferSize : ℚ) hsq
  have hS2 := roundTo_upper 53 (cfg.m_bufferSize : ℚ) hsq
  set S : ℚ := roundTo 53 (cfg.m_bufferSize : ℚ) with hSdef
  clear_value S
  have hMS : 0 < M / S := div_pos hM0 hS0
  have hv0 := roundTo_pos 53 (by norm_num) (M / S) hMS
  have hv1 := roundTo_lower 53 (M / S) hMS
  have hv2 := roundTo_upper 53 (M / S) hMS
  set v : ℚ := roundTo 53 (M / S) with hvdef
  clear_value v
  set r : ℚ := (1 / 2) ^ 53 with hr
  clear_value r
  have hrv : r = 1 / 9007199254740992 := by rw [hr]; norm_num
  have hr0 : 0 < r := by rw [hrv]; norm_num
  have hr1 : r < 1 := by rw [hrv]; norm_num
  set s : ℚ := (cfg.m_bufferSize : ℚ) with hsdef
  clear_value s
  set q : ℚ := (b : ℚ) with hqdef
  clear_value q
  -- the product, from above and from below
  have hBcu : B * c ≤ q * (7 / 5) * (1 + r) ^ 2 := by
    have h1 : B * c ≤ (q * (1 + r)) * c := mul_le_mul_of_nonneg_right hB2 hc0.le
    have h2 : (q * (1 + r)) * c ≤ (q * (1 + r)) * (7 / 5 * (1 + r)) :=
      mul_le_mul_of_nonneg_left hc2 (mul_nonneg hbq.le (by linarith))
    have h3 : (q * (1 + r)) * (7 / 5 * (1 + r)) = q * (7 / 5) * (1 + r) ^ 2 := by ring
    linarith
  have hBcl : q * (7 / 5) * (1 - r) ^ 2 ≤ B * c := by
    have h1 : (q * (1 - r)) * c ≤ B * c := mul_le_mul_of_nonneg_right hB1 hc0.le
    have h2 : (q * (1 - r)) * (7 / 5 * (1 - r)) ≤ (q * (1 - r)) * c :=
      mul_le_mul_of_nonneg_left hc1 (mul_nonneg hbq.le (by linarith))
    have h3 : (q * (1 - r)) * (7 / 5 * (1 - r)) = q * (7 / 5) * (1 - r) ^ 2 := by ring
    linarith
  have hMu : M ≤ q * (7 / 5) * (1 + r) ^ 3 := by
    have h1 : B * c * (1 + r) ≤ q * (7 / 5) * (1 + r) ^ 2 * (1 + r) :=
      mul_le_mul_of_nonneg_right hBcu (by linarith)
    have h2 : q * (7 / 5) * (1 + r) ^ 2 * (1 + r) = q * (7 / 5) * (1 + r) ^ 3 := by ring
    linarith
  have hMl : q * (7 / 5) * (1 - r) ^ 3 ≤ M := by
    have h1 : q * (7 / 5) * (1 - r) ^ 2 * (1 - r) ≤ B * c * (1 - r) :=
      mul_le_mul_of_nonneg_right hBcl (by linarith)
    have h2 : q * (7 / 5) * (1 - r) ^ 2 * (1 - r) = q * (7 / 5) * (1 - r) ^ 3 := by ring
    linarith
  have hSl : 0 < s * (1 - r) := mul_pos hsq (by linarith)
  -- the quotient
  have hqu : M / S ≤ q * (7 / 5) * (1 + r) ^ 3 / (s * (1 - r)) :=
    div_le_div₀ (by positivity) hMu hSl hS1
  have hql : q * (7 / 5) * (1 - r) ^ 3 / (s * (1 + r)) ≤ M / S :=
    div_le_div₀ hM0.le hMl hS0 hS2
  have hvu : v ≤ q * (7 / 5) * (1 + r) ^ 3 / (s * (1 - r)) * (1 + r) := by
    have := mul_le_mul_of_nonneg_right hqu (show (0 : ℚ) ≤ 1 + r by linarith)
    linarith
  have hvl : q * (7 / 5) * (1 - r) ^ 3 / (s * (1 + r)) * (1 - r) ≤ v := by
    have := mul_le_mul_of_nonneg_right hql (show (0 : ℚ) ≤ 1 - r by linarith)
    linarith
  have hx0 : 0 ≤ q * (7 / 5) / s := by positivity
  have hs0 : s ≠ 0 := hsq.ne'
  have hm0 : 1 - r ≠ 0 := by linarith
  have hp0 : 1 + r ≠ 0 := by linarith
  have hKu : q * (7 / 5) * (1 + r) ^ 3 / (s * (1 - r)) * (1 + r)
      ≤ q * (7 / 5) / s * (1 + 1 / 2 ^ 50) := by
    have h1 : q * (7 / 5) * (1 + r) ^ 3 / (s * (1 - r)) * (1 + r)
        = q * (7 / 5) / s * ((1 + r) ^ 4 / (1 - r)) := by
      field_simp
      ring
    rw [h1]
    apply mul_le_mul_of_nonneg_left _ hx0
    rw [hrv]
    norm_num
  have hKl : q * (7 / 5) / s * (1 - 1 / 2 ^ 50)
      ≤ q * (7 / 5) * (1 - r) ^ 3 / (s * (1 + r)) * (1 - r) := by
    have h1 : q * (7 / 5) * (1 - r) ^ 3 / (s * (1 + r)) * (1 - r)
        = q * (7 / 5) / s * ((1 - r) ^ 4 / (1 + r)) := by
      field_simp
      ring
    rw [h1]
    apply mul_le_mul_of_nonneg_left _ hx0
    rw [hrv]
    norm_num
  have hfl1 : ((⌊v⌋ : Int) : ℚ) ≤ v := Int.floor_le v
  have hfl2 : v < ((⌊v⌋ : Int) : ℚ) + 1 := Int.lt_floor_add_one v
  rw [hn]
  refine ⟨rfl, ?_, ?_⟩
  · linarith
  · linarith

/-- C4, amended, at `bytesToRemove = 2949120` and a block size of 64 KiB, where
the budget is 62. -/
theorem C4_nReq_bounds_witness :
    nReq ⟨1 / 4, 1 / 8, 65536, [], 24⟩ 2949120 = 62 ∧
    ((62 : Int) : ℚ) ≤ (((2949120 : Int) : ℚ) * (7 / 5)) / ((65536 : Int) : ℚ) * (1 + 1 / 2 ^ 50) ∧
    (((2949120 : Int) : ℚ) * (7 / 5)) / ((65536 : Int) : ℚ) * (1 - 1 / 2 ^ 50) - 1
      < ((62 : Int) : ℚ) := by
  have h := C4_nReq_bounds ⟨1 / 4, 1 / 8, 65536, [], 24⟩ 2949120 (by decide) (by decide)
  have hn : nReq ⟨1 / 4, 1 / 8, 65536, [], 24⟩ 2949120 = 62 := by
    rw [h.1]
    have hv : roundTo 53 (roundTo 53 (roundTo 53 ((2949120 : Int) : ℚ) * roundTo 53 (7 / 5))
        / roundTo 53 ((65536 : Int) : ℚ)) = 8866461766385663 / 140737488355328 := by
      rw [show roundTo 53 ((2949120 : Int) : ℚ) = 2949120 from
            roundTo_near 53 _ 21 6333186975989760 _
              (by norm_num) (by norm_num) (by norm_num [abs_lt]) (by norm_num),
          show roundTo 53 ((7 : ℚ) / 5) = 3152519739159347 / 2251799813685248 from
            roundTo_near 53 _ 0 6305039478318694 _
              (by norm_num) (by norm_num) (by norm_num [abs_lt]) (by norm_num),
          show roundTo 53 ((2949120 : ℚ) * (3152519739159347 / 2251799813685248))
              = 8866461766385663 / 2147483648 from
            roundTo_near 53 _ 21 8866461766385663 _
              (by norm_num) (by norm_num) (by norm_num [abs_lt]) (by norm_num),
          show roundTo 53 ((65536 : Int) : ℚ) = 65536 from
            roundTo_near 53 _ 16 4503599627370496 _
              (by norm_num) (by norm_num) (by norm_num [abs_lt]) (by norm_num),
          show roundTo 53 ((8866461766385663 : ℚ) / 2147483648 / 65536)
              = 8866461766385663 / 140737488355328 from
            roundTo_near 53 _ 5 8866461766385663 _
              (by norm_num) (by norm_num) (by norm_num [abs_lt]) (by norm_num)]
    rw [hv]
    norm_num [Int.floor_eq_iff]
  rw [hn] at h
  exact ⟨hn, h.2.1, h.2.2⟩

/-! ## The selector -/

theorem trimLoop_of_le (fmap : map_t) (req : Int) (fuel : Nat) (acc : Int) (h : acc ≤ req) :
    trimLoop fmap req fuel acc = .ok acc := by
  cases fuel <;> simp [trimLoop, not_lt.mpr h]

theorem foldl_sub_nBlck (l : map_t) (acc : Int) :
    l.foldl (fun acc it2 => acc - it2.2.nBlck) acc = acc - (l.map (fun e => e.2.nBlck)).sum := by
  induction l generalizing acc with
  | nil => simp
  | cons e l ih => simp only [List.foldl_cons, List.map_cons, List.sum_cons, ih]; ring

theorem one_le_sum_nBlck (l : map_t) (hne : l ≠ []) (h : ∀ e ∈ l, 1 ≤ e.2.nBlck) :
    1 ≤ (l.map (fun e => e.2.nBlck)).sum := by
  induction l with
  | nil => exact absurd rfl hne
  | cons e l ih =>
    simp only [List.map_cons, List.sum_cons]
    have he : 1 ≤ e.2.nBlck := h e (List.mem_cons_self _ _)
    have hl : 0 ≤ (l.map (fun e => e.2.nBlck)).sum := by
      apply List.sum_nonneg
      intro x hx
      obtain ⟨y, hy, rfl⟩ := List.mem_map.mp hx
      have := h y (List.mem_cons_of_mem _ hy)
      omega
    omega

theorem trimLoop_terminates (e : Int × FS) (rest : map_t) (req : Int)
    (h : ∀ x ∈ e :: rest, 1 ≤ x.2.nBlck) (fuel : Nat) (acc : Int)
    (hfuel : acc - req ≤ fuel) :
    ∃ a, trimLoop (e :: rest) req fuel acc = .ok a ∧ a ≤ req := by
  induction fuel generalizing acc with
  | zero =>
    have hle : acc ≤ req := by simpa using hfuel
    exact ⟨acc, trimLoop_of_le _ _ _ _ hle, hle⟩
  | succ fuel ih =>
    by_cases hgt : acc > req
    · have hg : 1 ≤ ((map_t.equal_range (e :: rest) e.1).map (fun x => x.2.nBlck)).sum := by
        apply one_le_sum_nBlck
        · simp [map_t.equal_range, List.filter_cons]
        · intro x hx
          exact h x (List.mem_of_mem_filter hx)
      have hstep : trimLoop (e :: rest) req (fuel + 1) acc
          = trimLoop (e :: rest) req fuel
              (acc - ((map_t.equal_range (e :: rest) e.1).map (fun x => x.2.nBlck)).sum) := by
        simp only [trimLoop, if_pos hgt, foldl_sub_nBlck]
      rw [hstep]
      apply ih
      push_cast at hfuel
      omega
    · have hle : acc ≤ req := not_lt.mp hgt
      exact ⟨acc, trimLoop_of_le _ _ _ _ hle, hle⟩

theorem mem_insert (m : map_t) (k : Int) (v : FS) (x : Int × FS) :
    x ∈ m.insert k v ↔ x = (k, v) ∨ x ∈ m := by
  induction m with
  | nil => simp [map_t.insert]
  | cons e rest ih =>
    unfold map_t.insert
    split
    · simp
    · simp only [List.mem_cons, ih]
      tauto

theorem insert_ne_nil (m : map_t) (k : Int) (v : FS) : m.insert k v ≠ [] := by
  cases m with
  | nil => simp [map_t.insert]
  | cons e rest =>
    unfold map_t.insert
    split <;> simp

theorem accept_ok (req : Int) (s : FPurgeState) (hs : SelInv req s) (fuel : Nat)
    (t : Int) (p : Path) (n : Int) (hn : 1 ≤ n) (hfuel : n ≤ fuel) :
    ∃ s1, s.accept fuel t p n = .ok s1 ∧ SelInv req s1 ∧
      s1.fmap = s.fmap.insert t ⟨p, n⟩ := by
  obtain ⟨e, rest, hins⟩ : ∃ e rest, s.fmap.insert t ⟨p, n⟩ = e :: rest := by
    cases h : s.fmap.insert t ⟨p, n⟩ with
    | nil => exact absurd h (insert_ne_nil _ _ _)
    | cons e rest => exact ⟨e, rest, rfl⟩
  have hblocks : ∀ x ∈ e :: rest, 1 ≤ x.2.nBlck := by
    intro x hx
    rw [← hins, mem_insert] at hx
    rcases hx with rfl | hx
    · exact hn
    · exact hs.blocks x hx
  have hacc := hs.accum_le
  obtain ⟨a, ha, hale⟩ := trimLoop_terminates e rest req hblocks fuel (s.nBlckAccum + n)
    (by omega)
  refine ⟨{ fmap := e :: rest, nBlckReq := s.nBlckReq, nBlckAccum := a }, ?_, ?_, hins.symm⟩
  · simp only [FPurgeState.accept, hins, hs.req_eq, ha, Res.bind]
  · exact ⟨hs.req_eq, hblocks, hale, fun h => by simp at h⟩

theorem checkFile_ok (req : Int) (hreq : 1 ≤ req) (s : FPurgeState) (hs : SelInv req s)
    (fuel : Nat) (t : Int) (p : Path) (n : Int) (hn : 1 ≤ n) (hfuel : n ≤ fuel) :
    ∃ s1, s.checkFile fuel t p n = .ok s1 ∧ SelInv req s1 ∧
      (∀ x ∈ s.fmap, x ∈ s1.fmap) ∧
      (∀ x ∈ s1.fmap, x ∈ s.fmap ∨ x = (t, ⟨p, n⟩)) ∧
      ((∀ x ∈ s.fmap, t < x.1) → (t, ⟨p, n⟩) ∈ s1.fmap) := by
  obtain ⟨s1, h1, hinv1, hmap1⟩ := accept_ok req s hs fuel t p n hn hfuel
  have hacc : ∃ s1, s.accept fuel t p n = .ok s1 ∧ SelInv req s1 ∧
      (∀ x ∈ s.fmap, x ∈ s1.fmap) ∧
      (∀ x ∈ s1.fmap, x ∈ s.fmap ∨ x = (t, ⟨p, n⟩)) ∧
      ((∀ x ∈ s.fmap, t < x.1) → (t, ⟨p, n⟩) ∈ s1.fmap) := by
    refine ⟨s1, h1, hinv1, ?_, ?_, ?_⟩
    · intro x hx; rw [hmap1, mem_insert]; exact Or.inr hx
    · intro x hx; rw [hmap1, mem_insert] at hx; tauto
    · intro _; rw [hmap1, mem_insert]; exact Or.inl rfl
  unfold FPurgeState.checkFile
  by_cases hlt : s.nBlckAccum < s.nBlckReq
  · rw [if_pos hlt]; exact hacc
  · rw [if_neg hlt]
    cases hlast : s.fmap.getLast? with
    | none =>
      have hnil : s.fmap = [] := List.getLast?_eq_none_iff.mp hlast
      have := hs.empty hnil
      have := hs.req_eq
      omega
    | some e =>
      by_cases hte : t < e.1
      · simp only [if_pos hte]; exact hacc
      · simp only [if_neg hte]
        refine ⟨s, rfl, hs, fun x hx => hx, fun x hx => Or.inl hx, ?_⟩
        intro hall
        exact absurd (hall e (List.mem_of_getLast?_eq_some hlast)) hte

theorem checkFiles_append (fuel : Nat) (s : FPurgeState) (l1 l2 : List Candidate) :
    checkFiles fuel s (l1 ++ l2) = (checkFiles fuel s l1).bind fun s1 => checkFiles fuel s1 l2 := by
  induction l1 generalizing s with
  | nil => simp [checkFiles, Res.bind]
  | cons c l1 ih =>
    simp only [List.cons_append, checkFiles]
    cases h : s.checkFile fuel c.iTime c.iPath c.iNBlck with
    | ok s1 => exact ih s1
    | outOfFuel => simp [Res.bind]
    | undefinedBehaviour => simp [Res.bind]

theorem checkFiles_ok (req : Int) (hreq : 1 ≤ req) (fuel : Nat) (cands : List Candidate)
    (hc : ∀ c ∈ cands, 1 ≤ c.iNBlck ∧ c.iNBlck ≤ fuel) (s : FPurgeState)
    (hs : SelInv req s) :
    ∃ s1, checkFiles fuel s cands = .ok s1 ∧ SelInv req s1 ∧
      (∀ x ∈ s.fmap, x ∈ s1.fmap) ∧
      (∀ x ∈ s1.fmap, x ∈ s.fmap ∨ ∃ c ∈ cands, x = c.entry) := by
  induction cands generalizing s with
  | nil => exact ⟨s, rfl, hs, fun x hx => hx, fun x hx => Or.inl hx⟩
  | cons c cs ih =>
    have hcc := hc c (List.mem_cons_self _ _)
    obtain ⟨s1, h1, hinv1, hsub1, hsup1, _⟩ :=
      checkFile_ok req hreq s hs fuel c.iTime c.iPath c.iNBlck hcc.1 hcc.2
    obtain ⟨s2, h2, hinv2, hsub2, hsup2⟩ :=
      ih (fun d hd => hc d (List.mem_cons_of_mem _ hd)) s1 hinv1
    refine ⟨s2, ?_, hinv2, fun x hx => hsub2 x (hsub1 x hx), ?_⟩
    · simp only [checkFiles, h1, Res.bind, h2]
    · intro x hx
      rcases hsup2 x hx with hx1 | ⟨d, hd, rfl⟩
      · rcases hsup1 x hx1 with hx0 | rfl
        · exact Or.inl hx0
        · exact Or.inr ⟨c, List.mem_cons_self _ _, rfl⟩
      · exact Or.inr ⟨d, List.mem_cons_of_mem _ hd, rfl⟩

theorem selInv_new (req : Int) (hreq : 1 ≤ req) : SelInv req (FPurgeState.new req) :=
  ⟨rfl, fun e he => by simp [FPurgeState.new] at he, by simp only [FPurgeState.new]; omega,
    fun _ => rfl⟩

theorem oldest_selected_of_fuel (req : Int) (hreq : 1 ≤ req) (pre post : List Candidate)
    (c : Candidate) (fuel : Nat)
    (hblk : ∀ d ∈ pre ++ c :: post, 1 ≤ d.iNBlck ∧ d.iNBlck ≤ fuel)
    (hold : ∀ d ∈ pre ++ post, c.iTime < d.iTime) :
    ∃ s, checkFiles fuel (FPurgeState.new req) (pre ++ c :: post) = .ok s ∧ c.entry ∈ s.fmap := by
  obtain ⟨s1, h1, hinv1, _, hsup1⟩ := checkFiles_ok req hreq fuel pre
    (fun d hd => hblk d (List.mem_append_left _ hd)) _ (selInv_new req hreq)
  have hcb := hblk c (List.mem_append_right _ (List.mem_cons_self _ _))
  obtain ⟨s2, h2, hinv2, _, _, hacc⟩ :=
    checkFile_ok req hreq s1 hinv1 fuel c.iTime c.iPath c.iNBlck hcb.1 hcb.2
  have hmem : c.entry ∈ s2.fmap := by
    apply hacc
    intro x hx
    rcases hsup1 x hx with hx0 | ⟨d, hd, rfl⟩
    · simp [FPurgeState.new] at hx0
    · exact hold d (List.mem_append_left _ hd)
  obtain ⟨s3, h3, _, hsub3, _⟩ := checkFiles_ok req hreq fuel post
    (fun d hd => hblk d (List.mem_append_right _ (List.mem_cons_of_mem _ hd))) s2 hinv2
  refine ⟨s3, ?_, hsub3 _ hmem⟩
  rw [checkFiles_append, h1]
  simp only [Res.bind, checkFiles, h2, h3]

theorem le_sum_toNat (l : List Candidate) (d : Candidate) (hd : d ∈ l) :
    d.iNBlck.toNat ≤ (l.map (fun c => c.iNBlck.toNat)).sum := by
  induction l with
  | nil => simp at hd
  | cons c l ih =>
    simp only [List.map_cons, List.sum_cons]
    rcases List.mem_cons.mp hd with rfl | h
    · omega
    · have := ih h
      omega

/-- C6. With a budget of at least one block and block counts of at least one,
a candidate strictly older than every other candidate of the sequence is in
the final `fmap`, whatever precedes and follows it: every call returns once
the trimming loop is given enough rounds, and the selection then holds it. -/
theorem C6_oldest_selected (req : Int) (hreq : 1 ≤ req) (pre post : List Candidate)
    (c : Candidate) (hblk : ∀ d ∈ pre ++ c :: post, 1 ≤ d.iNBlck)
    (hold : ∀ d ∈ pre ++ post, c.iTime < d.iTime) :
    ∃ fuel0 : Nat, ∀ fuel, fuel0 ≤ fuel →
      ∃ s, checkFiles fuel (FPurgeState.new req) (pre ++ c :: post) = .ok s ∧
        c.entry ∈ s.fmap := by
  refine ⟨(((pre ++ c :: post).map (fun c => c.iNBlck.toNat)).sum : Nat), ?_⟩
  intro fuel hfuel
  apply oldest_selected_of_fuel req hreq pre post c fuel _ hold
  intro d hd
  refine ⟨hblk d hd, ?_⟩
  have h1 := le_sum_toNat _ d hd
  have h2 : d.iNBlck ≤ (d.iNBlck.toNat : Int) := Int.self_le_toNat _
  omega

/-- C6 for two candidates under a budget of 15 blocks that either fills: the
older one (time 1) is selected when offered first and when offered second. -/
theorem C6_oldest_selected_witness :
    (∃ fuel0 : Nat, ∀ fuel, fuel0 ≤ fuel →
      ∃ s, checkFiles fuel (FPurgeState.new 15) [⟨1, ['a'], 20⟩, ⟨2, ['b'], 20⟩] = .ok s ∧
        (1, (⟨['a'], 20⟩ : FS)) ∈ s.fmap) ∧
    (∃ fuel0 : Nat, ∀ fuel, fuel0 ≤ fuel →
      ∃ s, checkFiles fuel (FPurgeState.new 15) [⟨2, ['b'], 20⟩, ⟨1, ['a'], 20⟩] = .ok s ∧
        (1, (⟨['a'], 20⟩ : FS)) ∈ s.fmap) :=
  ⟨C6_oldest_selected 15 (by decide) [] [⟨2, ['b'], 20⟩] ⟨1, ['a'], 20⟩ (by decide) (by decide),
   C6_oldest_selected 15 (by decide) [⟨2, ['b'], 20⟩] [] ⟨1, ['a'], 20⟩ (by decide) (by decide)⟩

/-- C1, evaluated on the scenario: three candidates at times 1, 2, 3 with 10
blocks each and a budget of 15. The cutoff time is 2, yet in scan order and in
reverse scan order the final `fmap` holds all three candidates, the one at
time 3 included, for every budget of the trimming loop that lets the calls
return. -/
theorem C1_newest_kept :
    IsCutoff [⟨1, ['a'], 10⟩, ⟨2, ['b'], 10⟩, ⟨3, ['c'], 10⟩] 15 2 ∧
    (∀ fuel : Nat,
      checkFiles (fuel + 1) (FPurgeState.new 15)
          [⟨1, ['a'], 10⟩, ⟨2, ['b'], 10⟩, ⟨3, ['c'], 10⟩]
        = .ok ⟨[(1, ⟨['a'], 10⟩), (2, ⟨['b'], 10⟩), (3, ⟨['c'], 10⟩)], 15, 10⟩) ∧
    (∀ fuel : Nat,
      checkFiles (fuel + 1) (FPurgeState.new 15)
          [⟨3, ['c'], 10⟩, ⟨2, ['b'], 10⟩, ⟨1, ['a'], 10⟩]
        = .ok ⟨[(1, ⟨['a'], 10⟩), (2, ⟨['b'], 10⟩), (3, ⟨['c'], 10⟩)], 15, 10⟩) ∧
    (3, (⟨['c'], 10⟩ : FS)) ∈ [(1, (⟨['a'], 10⟩ : FS)), (2, ⟨['b'], 10⟩), (3, ⟨['c'], 10⟩)] ∧
    (2 : Int) < 3 := by
  refine ⟨by unfold IsCutoff blocksUpTo; decide, ?_, ?_, by decide, by decide⟩
  · intro fuel
    simp [checkFiles, FPurgeState.checkFile, FPurgeState.accept, FPurgeState.new, trimLoop,
      map_t.insert, map_t.equal_range, Res.bind, trimLoop_of_le, List.filter_cons]
  · intro fuel
    simp [checkFiles, FPurgeState.checkFile, FPurgeState.accept, FPurgeState.new, trimLoop,
      map_t.insert, map_t.equal_range, Res.bind, trimLoop_of_le, List.filter_cons]

theorem trimLoop_stuck (fuel : Nat) :
    trimLoop [(1, ⟨['a'], 0⟩), (2, ⟨['b'], 5⟩)] 1 fuel 5 = .outOfFuel := by
  induction fuel with
  | zero => simp [trimLoop]
  | succ fuel ih =>
    simp only [trimLoop, map_t.equal_range]
    simpa [List.filter_cons] using ih

/-- C9, evaluated with a budget of 1 block on a sidecar reporting 0 blocks at
time 1 followed by one reporting 5 blocks at time 2: the second call of
`checkFile` does not return. The oldest group totals 0 blocks, the loop
subtracts 0 from `nBlckAccum = 5` each round, and no number of rounds brings it
to `nBlckAccum <= nBlckReq`. -/
theorem C9_trim_never_returns :
    ∀ fuel : Nat,
      checkFiles fuel (FPurgeState.new 1) [⟨1, ['a'], 0⟩, ⟨2, ['b'], 5⟩] = .outOfFuel := by
  intro fuel
  have h1 : (FPurgeState.new 1).checkFile fuel 1 ['a'] 0
      = .ok ⟨[(1, ⟨['a'], 0⟩)], 1, 0⟩ := by
    simp [FPurgeState.checkFile, FPurgeState.accept, FPurgeState.new, map_t.insert,
      trimLoop_of_le, Res.bind]
  have h2 : (⟨[(1, ⟨['a'], 0⟩)], 1, 0⟩ : FPurgeState).checkFile fuel 2 ['b'] 5
      = .outOfFuel := by
    simp [FPurgeState.checkFile, FPurgeState.accept, map_t.insert, trimLoop_stuck, Res.bind]
  simp only [checkFiles, h1, Res.bind, h2]

/-! ## The scan -/

/-- C7, evaluated: `FillFileMapRecurse` passes over every entry whose name
starts with a dot, not only `.` and `..`. The name `.a.cinfo` is neither `.`
nor `..` and ends with the sidecar suffix `.cinfo`, and `.d` is a directory
that opens and holds a sidecar; a listing made of the two is scanned without
opening any file, without any `Opendir` and without offering a candidate. -/
theorem C7_dot_entries_skipped :
    (∀ (infoExt : List Char) (fuel : Nat) (name : List Char) (info : Option (Int × Int))
        (opens : Bool) (entries rest : DirList) (path : Path) (s : ScanState),
      FillFileMapRecurse infoExt fuel (.cons (.mk ('.' :: name) info opens entries) rest) path s
        = FillFileMapRecurse infoExt fuel rest path s) ∧
    isInfoName ['.', 'c', 'i', 'n', 'f', 'o'] ['.', 'a', '.', 'c', 'i', 'n', 'f', 'o'] = true ∧
    (∀ (fuel : Nat) (s : ScanState),
      FillFileMapRecurse ['.', 'c', 'i', 'n', 'f', 'o'] fuel
          (.cons (.mk ['.', 'a', '.', 'c', 'i', 'n', 'f', 'o'] (some (1, 5)) false .nil)
            (.cons (.mk ['.', 'd'] none true
              (.cons (.mk ['b', '.', 'c', 'i', 'n', 'f', 'o'] (some (2, 5)) false .nil) .nil))
              .nil))
          ['c'] s
        = .ok s) := by
  have hgen : ∀ (infoExt : List Char) (fuel : Nat) (name : List Char)
      (info : Option (Int × Int)) (opens : Bool) (entries rest : DirList) (path : Path)
      (s : ScanState),
      FillFileMapRecurse infoExt fuel (.cons (.mk ('.' :: name) info opens entries) rest) path s
        = FillFileMapRecurse infoExt fuel rest path s := by
    intro infoExt fuel name info opens entries rest path s
    simp [FillFileMapRecurse, entryGuard, strncmp]
  refine ⟨hgen, by decide, ?_⟩
  intro fuel s
  rw [hgen, hgen]
  rfl

/-! ## The eviction loop -/

/-- C8. The info file and the data file of a candidate are stat-ed and
unlinked independently. If the info file exists and the data file does not,
the info file is unlinked, its size is subtracted from `bytesToRemove` and no
other path changes; if the info file is missing and the data file exists, the
data file is unlinked in the same way. In both cases the inner loop goes on
with the next candidate of the group. -/
theorem C8_pair_independent (infoExt : List Char) (s : EvictState) (it2 : Int × FS)
    (rest : map_t) (size : Nat) :
    (s.storage it2.2.path = some size → s.storage (dataPath infoExt it2.2.path) = none →
      (evictEntry infoExt s it2).storage = s.storage.unlink it2.2.path ∧
      (evictEntry infoExt s it2).bytesToRemove = s.bytesToRemove - size ∧
      (evictEntry infoExt s it2).unlinked = s.unlinked ++ [it2.2.path] ∧
      (evictEntry infoExt s it2).storage it2.2.path = none ∧
      ∀ q, q ≠ it2.2.path → (evictEntry infoExt s it2).storage q = s.storage q) ∧
    (s.storage it2.2.path = none → s.storage (dataPath infoExt it2.2.path) = some size →
      (evictEntry infoExt s it2).storage = s.storage.unlink (dataPath infoExt it2.2.path) ∧
      (evictEntry infoExt s it2).bytesToRemove = s.bytesToRemove - size ∧
      (evictEntry infoExt s it2).unlinked = s.unlinked ++ [dataPath infoExt it2.2.path] ∧
      (evictEntry infoExt s it2).storage (dataPath infoExt it2.2.path) = none ∧
      ∀ q, q ≠ dataPath infoExt it2.2.path →
        (evictEntry infoExt s it2).storage q = s.storage q) ∧
    evictGroup infoExt (it2 :: rest) s = evictGroup infoExt rest (evictEntry infoExt s it2) := by
  refine ⟨?_, ?_, rfl⟩
  · intro h1 h2
    have hd : (s.storage.unlink it2.2.path) (dataPath infoExt it2.2.path) = none := by
      simp [Storage.unlink, h2]
    have he : evictEntry infoExt s it2
        = { storage := s.storage.unlink it2.2.path,
            bytesToRemove := s.bytesToRemove - size,
            handled := s.handled ++ [it2],
            unlinked := s.unlinked ++ [it2.2.path] } := by
      simp only [evictEntry, statUnlink, h1, hd]
    rw [he]
    refine ⟨rfl, rfl, rfl, by simp [Storage.unlink], ?_⟩
    intro q hq
    simp [Storage.unlink, hq]
  · intro h1 h2
    have he : evictEntry infoExt s it2
        = { storage := s.storage.unlink (dataPath infoExt it2.2.path),
            bytesToRemove := s.bytesToRemove - size,
            handled := s.handled ++ [it2],
            unlinked := s.unlinked ++ [dataPath infoExt it2.2.path] } := by
      simp only [evictEntry, statUnlink, h1, h2]
    rw [he]
    refine ⟨rfl, rfl, rfl, by simp [Storage.unlink], ?_⟩
    intro q hq
    simp [Storage.unlink, hq]

/-- C8 on a storage holding only the info file `a.i` (7 bytes), and on one
holding only the data file `a` (9 bytes), with `.i` as the suffix. -/
theorem C8_pair_independent_witness :
    ((evictEntry ['.', 'i']
        ⟨fun p => if p = ['a', '.', 'i'] then some 7 else none, 100, [], []⟩
        (1, ⟨['a', '.', 'i'], 3⟩)).bytesToRemove = 100 - (7 : Nat) ∧
      (evictEntry ['.', 'i']
        ⟨fun p => if p = ['a', '.', 'i'] then some 7 else none, 100, [], []⟩
        (1, ⟨['a', '.', 'i'], 3⟩)).unlinked = [] ++ [['a', '.', 'i']]) ∧
    ((evictEntry ['.', 'i']
        ⟨fun p => if p = ['a'] then some 9 else none, 100, [], []⟩
        (1, ⟨['a', '.', 'i'], 3⟩)).bytesToRemove = 100 - (9 : Nat) ∧
      (evictEntry ['.', 'i']
        ⟨fun p => if p = ['a'] then some 9 else none, 100, [], []⟩
        (1, ⟨['a', '.', 'i'], 3⟩)).unlinked = [] ++ [['a']]) := by
  have h1 := (C8_pair_independent ['.', 'i']
    ⟨fun p => if p = ['a', '.', 'i'] then some 7 else none, 100, [], []⟩
    (1, ⟨['a', '.', 'i'], 3⟩) [] 7).1 (by decide) (by decide)
  have h2 := (C8_pair_independent ['.', 'i']
    ⟨fun p => if p = ['a'] then some 9 else none, 100, [], []⟩
    (1, ⟨['a', '.', 'i'], 3⟩) [] 9).2.1 (by decide) (by decide)
  exact ⟨⟨h1.2.1, h1.2.2.1⟩, ⟨h2.2.1, h2.2.2.1⟩⟩

theorem statUnlink_of_absent (p : Path) (s : EvictState) (h : s.storage p = none) :
    statUnlink p s = s := by
  simp [statUnlink, h]

theorem statUnlink_keeps_absent (p q : Path) (s : EvictState) (h : s.storage q = none) :
    (statUnlink p s).storage q = none := by
  unfold statUnlink
  cases hp : s.storage p with
  | none => simpa using h
  | some sz => simp [Storage.unlink, h]

theorem statUnlink_self (p : Path) (s : EvictState) : (statUnlink p s).storage p = none := by
  unfold statUnlink
  cases hp : s.storage p with
  | none => simpa using hp
  | some sz => simp [Storage.unlink]

theorem statUnlink_handled (p : Path) (s : EvictState) :
    (statUnlink p s).handled = s.handled := by
  unfold statUnlink
  cases hp : s.storage p <;> rfl

theorem evictEntry_keeps_absent (infoExt : List Char) (s : EvictState) (e : Int × FS)
    (q : Path) (h : s.storage q = none) : (evictEntry infoExt s e).storage q = none := by
  unfold evictEntry
  apply statUnlink_keeps_absent
  apply statUnlink_keeps_absent
  exact h

theorem evictEntry_gone (infoExt : List Char) (s : EvictState) (e : Int × FS) :
    (evictEntry infoExt s e).storage e.2.path = none ∧
      (evictEntry infoExt s e).storage (dataPath infoExt e.2.path) = none := by
  unfold evictEntry
  exact ⟨statUnlink_keeps_absent _ _ _ (statUnlink_self _ _), statUnlink_self _ _⟩

theorem evictGroup_keeps_absent (infoExt : List Char) (g : map_t) (s : EvictState)
    (q : Path) (h : s.storage q = none) : (evictGroup infoExt g s).storage q = none := by
  induction g generalizing s with
  | nil => exact h
  | cons e g ih => exact ih _ (evictEntry_keeps_absent infoExt s e q h)

theorem evictGroup_gone (infoExt : List Char) (g : map_t) (s : EvictState) :
    Gone infoExt g (evictGroup infoExt g s).storage := by
  induction g generalizing s with
  | nil => intro e he; simp at he
  | cons e g ih =>
    intro x hx
    rcases List.mem_cons.mp hx with rfl | hx
    · have h := evictEntry_gone infoExt s x
      exact ⟨evictGroup_keeps_absent infoExt g _ _ h.1,
        evictGroup_keeps_absent infoExt g _ _ h.2⟩
    · exact ih (evictEntry infoExt s e) x hx

theorem evictGroup_handled (infoExt : List Char) (g : map_t) (s : EvictState) :
    (evictGroup infoExt g s).handled = s.handled ++ g := by
  induction g generalizing s with
  | nil => simp [evictGroup]
  | cons e g ih =>
    have h : (evictEntry infoExt s e).handled = s.handled ++ [e] := by
      simp [evictEntry, statUnlink_handled]
    show (evictGroup infoExt g (evictEntry infoExt s e)).handled = _
    rw [ih, h]
    simp

theorem evictGroup_of_gone (infoExt : List Char) (g : map_t) (s : EvictState)
    (h : Gone infoExt g s.storage) :
    evictGroup infoExt g s = { s with handled := s.handled ++ g } := by
  induction g generalizing s with
  | nil => simp [evictGroup]
  | cons e g ih =>
    have he := h e (List.mem_cons_self _ _)
    have h1 : evictEntry infoExt s e = { s with handled := s.handled ++ [e] } := by
      unfold evictEntry
      rw [statUnlink_of_absent e.2.path { s with handled := s.handled ++ [e] } he.1,
        statUnlink_of_absent (dataPath infoExt e.2.path)
          { s with handled := s.handled ++ [e] } he.2]
    show evictGroup infoExt g (evictEntry infoExt s e) = _
    rw [h1, ih { s with handled := s.handled ++ [e] }
      (fun x hx => h x (List.mem_cons_of_mem _ hx))]
    simp

theorem sim_statUnlink (p : Path) (s t : EvictState) (h : Sim s t) :
    Sim (statUnlink p s) (statUnlink p t) := by
  obtain ⟨h1, h2, h3, h4⟩ := h
  unfold statUnlink
  rw [h1]
  cases hp : t.storage p with
  | none => exact ⟨h1, h2, h3, h4⟩
  | some sz => exact ⟨by simp [h1], by simp [h2], by simp [h3], h4⟩

theorem sim_evictEntry (infoExt : List Char) (s t : EvictState) (e : Int × FS)
    (h : Sim s t) : Sim (evictEntry infoExt s e) (evictEntry infoExt t e) := by
  unfold evictEntry
  apply sim_statUnlink
  apply sim_statUnlink
  obtain ⟨h1, h2, h3, h4⟩ := h
  exact ⟨h1, h2, h3, fun x => by simp [h4 x]⟩

theorem sim_evictGroup (infoExt : List Char) (g : map_t) (s t : EvictState) (h : Sim s t) :
    Sim (evictGroup infoExt g s) (evictGroup infoExt g t) := by
  induction g generalizing s t with
  | nil => exact h
  | cons e g ih => exact ih _ _ (sim_evictEntry infoExt s t e h)

theorem evictLoop_eq_spec (infoExt : List Char) (fmap rest : map_t) (s : EvictState) :
    evictLoop infoExt fmap rest s
      = evictGroupsSpec infoExt (rest.map fun it => fmap.equal_range it.1) s := by
  induction rest generalizing s with
  | nil => rfl
  | cons it rest ih =>
    simp only [evictLoop, List.map_cons, evictGroupsSpec]
    split
    · rfl
    · exact ih _

theorem evictGroupsSpec_dedup (infoExt : List Char) (fmap : map_t) :
    ∀ (ks done : List Int) (s t : EvictState), Sim s t →
      (∀ k ∈ done, Gone infoExt (fmap.equal_range k) s.storage ∧
        ∀ x ∈ fmap.equal_range k, x ∈ s.handled) →
      (done ≠ [] → 0 < s.bytesToRemove) →
      Sim (evictGroupsSpec infoExt (ks.map fmap.equal_range) s)
        (evictGroupsSpec infoExt
          (((groupKeys ks).filter (fun k => decide (k ∉ done))).map fmap.equal_range) t) := by
  intro ks
  induction ks with
  | nil =>
    intro done s t hsim _ _
    simpa [groupKeys, evictGroupsSpec] using hsim
  | cons k ks ih =>
    intro done s t hsim hdone hpos
    by_cases hk : k ∈ done
    · have hg := hdone k hk
      have hs1 := evictGroup_of_gone infoExt (fmap.equal_range k) s hg.1
      have hbpos : ¬ (s.bytesToRemove ≤ 0) := by
        have := hpos (List.ne_nil_of_mem hk)
        omega
      have hl : evictGroupsSpec infoExt ((k :: ks).map fmap.equal_range) s
          = evictGroupsSpec infoExt (ks.map fmap.equal_range)
              { s with handled := s.handled ++ fmap.equal_range k } := by
        simp only [List.map_cons, evictGroupsSpec, hs1, if_neg hbpos]
      have hr : (groupKeys (k :: ks)).filter (fun k => decide (k ∉ done))
          = (groupKeys ks).filter (fun k => decide (k ∉ done)) := by
        simp only [groupKeys, List.filter_cons, hk, not_true_eq_false, decide_False,
          Bool.false_eq_true, if_false, List.filter_filter]
        apply List.filter_congr
        intro x _
        by_cases hx : x = k
        · subst hx; simp [hk]
        · simp [hx]
      rw [hl, hr]
      apply ih done _ t
      · obtain ⟨h1, h2, h3, h4⟩ := hsim
        refine ⟨h1, h2, h3, fun x => ?_⟩
        rw [← h4 x]
        simp only [List.mem_append]
        constructor
        · rintro (hx | hx)
          · exact hx
          · exact hg.2 x hx
        · exact Or.inl
      · intro k1 hk1
        exact ⟨(hdone k1 hk1).1, fun x hx => List.mem_append_left _ ((hdone k1 hk1).2 x hx)⟩
      · exact hpos
    · have hsim1 := sim_evictGroup infoExt (fmap.equal_range k) s t hsim
      have hr : (groupKeys (k :: ks)).filter (fun k => decide (k ∉ done))
          = k :: (groupKeys ks).filter (fun j => decide (j ∉ k :: done)) := by
        simp only [groupKeys, List.filter_cons, hk, not_false_eq_true, decide_True, if_true,
          List.filter_filter]
        congr 1
        apply List.filter_congr
        intro x _
        by_cases hx : x = k
        · subst hx; simp
        · by_cases hd : x ∈ done <;> simp [hx, hd]
      rw [hr]
      simp only [List.map_cons, evictGroupsSpec]
      by_cases hb : (evictGroup infoExt (fmap.equal_range k) s).bytesToRemove ≤ 0
      · have hb1 : (evictGroup infoExt (fmap.equal_range k) t).bytesToRemove ≤ 0 := by
          rw [← hsim1.2.1]; exact hb
        rw [if_pos hb, if_pos hb1]
        exact hsim1
      · have hb1 : ¬ (evictGroup infoExt (fmap.equal_range k) t).bytesToRemove ≤ 0 := by
          rw [← hsim1.2.1]; exact hb
        rw [if_neg hb, if_neg hb1]
        apply ih (k :: done) _ _ hsim1
        · intro k1 hk1
          rcases List.mem_cons.mp hk1 with rfl | hk1
          · refine ⟨evictGroup_gone infoExt _ s, fun x hx => ?_⟩
            rw [evictGroup_handled]
            exact List.mem_append_right _ hx
          · refine ⟨fun e he => ?_, fun x hx => ?_⟩
            · have := (hdone k1 hk1).1 e he
              exact ⟨evictGroup_keeps_absent infoExt _ s _ this.1,
                evictGroup_keeps_absent infoExt _ s _ this.2⟩
            · rw [evictGroup_handled]
              exact List.mem_append_left _ ((hdone k1 hk1).2 x hx)
        · intro _
          omega

theorem afterGroups_cons (infoExt : List Char) (g : map_t) (gs : List map_t)
    (s : EvictState) :
    afterGroups infoExt (g :: gs) s = afterGroups infoExt gs (evictGroup infoExt g s) := rfl

theorem afterGroups_handled (infoExt : List Char) (gs : List map_t) (s : EvictState) :
    (afterGroups infoExt gs s).handled = s.handled ++ gs.flatten := by
  induction gs generalizing s with
  | nil => simp [afterGroups]
  | cons g gs ih =>
    rw [afterGroups_cons, ih, evictGroup_handled]
    simp

theorem evictGroupsSpec_take (infoExt : List Char) :
    ∀ (gs : List map_t) (s : EvictState), 0 < s.bytesToRemove →
      ∃ n, n ≤ gs.length ∧
        evictGroupsSpec infoExt gs s = afterGroups infoExt (gs.take n) s ∧
        (∀ m, m < n → 0 < (afterGroups infoExt (gs.take m) s).bytesToRemove) ∧
        (n = gs.length ∨ (afterGroups infoExt (gs.take n) s).bytesToRemove ≤ 0) := by
  intro gs
  induction gs with
  | nil =>
    intro s _
    exact ⟨0, le_refl _, rfl, fun m hm => absurd hm (Nat.not_lt_zero m), Or.inl rfl⟩
  | cons g gs ih =>
    intro s hs
    by_cases hb : (evictGroup infoExt g s).bytesToRemove ≤ 0
    · refine ⟨1, by simp, ?_, ?_, Or.inr ?_⟩
      · simp only [evictGroupsSpec, if_pos hb]
        rfl
      · intro m hm
        have hm0 : m = 0 := by omega
        subst hm0
        exact hs
      · exact hb
    · obtain ⟨n, hn, heq, hmin, hstop⟩ := ih (evictGroup infoExt g s) (by omega)
      refine ⟨n + 1, by simpa using hn, ?_, ?_, ?_⟩
      · simp only [evictGroupsSpec, if_neg hb, List.take_succ_cons, afterGroups_cons]
        exact heq
      · intro m hm
        cases m with
        | zero => exact hs
        | succ m =>
          rw [List.take_succ_cons, afterGroups_cons]
          exact hmin m (by omega)
      · rw [List.take_succ_cons, afterGroups_cons]
        rcases hstop with h | h
        · exact Or.inl (by simp [h])
        · exact Or.inr h

theorem mem_groupKeys (ks : List Int) (k : Int) : k ∈ groupKeys ks → k ∈ ks := by
  induction ks with
  | nil => simp [groupKeys]
  | cons a ks ih =>
    simp only [groupKeys, List.mem_cons, List.mem_filter]
    rintro (h | ⟨h, _⟩)
    · exact Or.inl h
    · exact Or.inr (ih h)

theorem groupKeys_ascending (ks : List Int) (h : ks.Pairwise (· ≤ ·)) :
    (groupKeys ks).Pairwise (· < ·) := by
  induction ks with
  | nil => simp [groupKeys]
  | cons a ks ih =>
    rw [List.pairwise_cons] at h
    simp only [groupKeys, List.pairwise_cons]
    refine ⟨?_, (ih h.2).filter _⟩
    intro b hb
    rw [List.mem_filter] at hb
    have h1 := h.1 b (mem_groupKeys ks b hb.1)
    have h2 : b ≠ a := by simpa using hb.2
    omega

theorem evictLoop_take (infoExt : List Char) (fmap : map_t)
    (hsorted : fmap.Pairwise (fun a b => a.1 ≤ b.1)) (storage : Storage) (b : Int)
    (hb : 0 < b) :
    (groupKeys (fmap.map Prod.fst)).Pairwise (· < ·) ∧
    ∃ n, n ≤ (groups fmap).length ∧
      (∀ m, m < n →
        0 < (afterGroups infoExt ((groups fmap).take m)
              (EvictState.start storage b)).bytesToRemove) ∧
      (n = (groups fmap).length ∨
        (afterGroups infoExt ((groups fmap).take n)
          (EvictState.start storage b)).bytesToRemove ≤ 0) ∧
      (evictLoop infoExt fmap fmap (EvictState.start storage b)).storage
        = (afterGroups infoExt ((groups fmap).take n) (EvictState.start storage b)).storage ∧
      (evictLoop infoExt fmap fmap (EvictState.start storage b)).bytesToRemove
        = (afterGroups infoExt ((groups fmap).take n)
            (EvictState.start storage b)).bytesToRemove ∧
      (evictLoop infoExt fmap fmap (EvictState.start storage b)).unlinked
        = (afterGroups infoExt ((groups fmap).take n) (EvictState.start storage b)).unlinked ∧
      ∀ x, x ∈ (evictLoop infoExt fmap fmap (EvictState.start storage b)).handled
        ↔ x ∈ ((groups fmap).take n).flatten := by
  refine ⟨groupKeys_ascending _ (List.pairwise_map.mpr hsorted), ?_⟩
  have hsim := evictGroupsSpec_dedup infoExt fmap (fmap.map Prod.fst) []
    (EvictState.start storage b) (EvictState.start storage b)
    ⟨rfl, rfl, rfl, fun _ => Iff.rfl⟩ (fun k hk => by simp at hk) (fun h => absurd rfl h)
  have hloop : evictLoop infoExt fmap fmap (EvictState.start storage b)
      = evictGroupsSpec infoExt ((fmap.map Prod.fst).map fmap.equal_range)
          (EvictState.start storage b) := by
    rw [evictLoop_eq_spec, List.map_map]
    rfl
  have hfil : (groupKeys (fmap.map Prod.fst)).filter (fun k => decide (k ∉ ([] : List Int)))
      = groupKeys (fmap.map Prod.fst) := by
    simp
  rw [hfil] at hsim
  obtain ⟨n, hn, heq, hmin, hstop⟩ := evictGroupsSpec_take infoExt (groups fmap)
    (EvictState.start storage b) hb
  have heq1 : evictGroupsSpec infoExt
      ((groupKeys (fmap.map Prod.fst)).map fmap.equal_range) (EvictState.start storage b)
      = afterGroups infoExt ((groups fmap).take n) (EvictState.start storage b) := heq
  rw [heq1, ← hloop] at hsim
  obtain ⟨h1, h2, h3, h4⟩ := hsim
  refine ⟨n, hn, hmin, hstop, h1, h2, h3, fun x => ?_⟩
  rw [h4 x, afterGroups_handled]
  simp [EvictState.start]

theorem core_statUnlink (p : Path) (s t : EvictState) (h : Core s t) :
    Core (statUnlink p s) (statUnlink p t) := by
  obtain ⟨h1, h2, h3⟩ := h
  unfold statUnlink
  rw [h1]
  cases hp : t.storage p with
  | none => exact ⟨h1, h2, h3⟩
  | some sz => exact ⟨by simp [h1], by simp [h2], by simp [h3]⟩

theorem core_evictEntry (infoExt : List Char) (s t : EvictState) (e : Int × FS)
    (h : Core s t) :
    Core (evictEntry infoExt s e)
      (statUnlink (dataPath infoExt e.2.path) (statUnlink e.2.path t)) := by
  unfold evictEntry
  apply core_statUnlink
  apply core_statUnlink
  exact h

theorem core_evictGroup (infoExt : List Char) (g : map_t) (s t : EvictState) (h : Core s t) :
    Core (evictGroup infoExt g s) (unlinkAll (pairPaths infoExt g) t) := by
  induction g generalizing s t with
  | nil => exact h
  | cons e g ih => exact ih _ _ (core_evictEntry infoExt s t e h)

theorem pairPaths_append (infoExt : List Char) (g1 g2 : map_t) :
    pairPaths infoExt (g1 ++ g2) = pairPaths infoExt g1 ++ pairPaths infoExt g2 := by
  induction g1 with
  | nil => rfl
  | cons e g ih => simp [pairPaths, ih]

theorem unlinkAll_append (ps qs : List Path) (s : EvictState) :
    unlinkAll (ps ++ qs) s = unlinkAll qs (unlinkAll ps s) := by
  simp [unlinkAll, List.foldl_append]

theorem core_afterGroups (infoExt : List Char) (gs : List map_t) (s t : EvictState)
    (h : Core s t) :
    Core (afterGroups infoExt gs s) (unlinkAll (pairPaths infoExt gs.flatten) t) := by
  induction gs generalizing s t with
  | nil => exact h
  | cons g gs ih =>
    rw [afterGroups_cons, List.flatten_cons, pairPaths_append, unlinkAll_append]
    exact ih _ _ (core_evictGroup infoExt g s t h)

theorem sum_sizeOf_filter_ne (st : Storage) (p : Path) (l : List Path)
    (hp : st.sizeOf p = 0) :
    ((l.filter (fun q => decide (q ≠ p))).map st.sizeOf).sum = (l.map st.sizeOf).sum := by
  induction l with
  | nil => rfl
  | cons a l ih =>
    simp only [List.filter_cons]
    by_cases ha : a = p
    · simp only [ha, ne_eq, not_true_eq_false, decide_False, Bool.false_eq_true, if_false,
        List.map_cons, List.sum_cons, hp, zero_add]
      exact ih
    · simp only [ne_eq, ha, not_false_eq_true, decide_True, if_true, List.map_cons,
        List.sum_cons, ih]

theorem sum_sizeOf_unlink (st : Storage) (p : Path) (l : List Path) :
    (l.map (st.unlink p).sizeOf).sum
      = ((l.filter (fun q => decide (q ≠ p))).map st.sizeOf).sum := by
  induction l with
  | nil => rfl
  | cons a l ih =>
    simp only [List.filter_cons, List.map_cons, List.sum_cons, ih]
    by_cases ha : a = p
    · simp only [ha, ne_eq, not_true_eq_false, decide_False, Bool.false_eq_true, if_false]
      simp [Storage.sizeOf, Storage.unlink]
    · simp only [ne_eq, ha, not_false_eq_true, decide_True, if_true, List.map_cons,
        List.sum_cons]
      simp [Storage.sizeOf, Storage.unlink, ha]

theorem unlinkAll_closed (ps : List Path) (s : EvictState) :
    (unlinkAll ps s).storage = s.storage.removeAll ps ∧
      (unlinkAll ps s).bytesToRemove = s.bytesToRemove - freedBytes s.storage ps ∧
      (unlinkAll ps s).unlinked = s.unlinked ++ existingPaths s.storage ps := by
  induction ps generalizing s with
  | nil =>
    refine ⟨?_, ?_, ?_⟩
    · funext q; simp [unlinkAll, Storage.removeAll]
    · simp [unlinkAll, freedBytes, distinctPaths]
    · simp [unlinkAll, existingPaths, distinctPaths]
  | cons p ps ih =>
    have hstep : unlinkAll (p :: ps) s = unlinkAll ps (statUnlink p s) := rfl
    obtain ⟨i1, i2, i3⟩ := ih (statUnlink p s)
    rw [hstep, i1, i2, i3]
    cases hp : s.storage p with
    | none =>
      have hs : statUnlink p s = s := statUnlink_of_absent p s hp
      have hsz : s.storage.sizeOf p = 0 := by simp [Storage.sizeOf, hp]
      rw [hs]
      refine ⟨?_, ?_, ?_⟩
      · funext q
        by_cases hq : q = p
        · subst hq; simp [Storage.removeAll, hp]
        · simp [Storage.removeAll, hq]
      · simp only [freedBytes, distinctPaths, List.map_cons, List.sum_cons, hsz, zero_add,
          sum_sizeOf_filter_ne _ _ _ hsz]
      · simp only [existingPaths, distinctPaths, List.filter_cons, hp, Option.isSome_none,
          Bool.false_eq_true, if_false, List.filter_filter]
        congr 1
        apply List.filter_congr
        intro x _
        by_cases hx : x = p
        · subst hx; simp [hp]
        · simp [hx]
    | some sz =>
      have hst : (statUnlink p s).storage = s.storage.unlink p := by
        simp [statUnlink, hp]
      have hbt : (statUnlink p s).bytesToRemove = s.bytesToRemove - (sz : Int) := by
        simp [statUnlink, hp]
      have hun : (statUnlink p s).unlinked = s.unlinked ++ [p] := by
        simp [statUnlink, hp]
      have hsz : s.storage.sizeOf p = (sz : Int) := by simp [Storage.sizeOf, hp]
      rw [hst, hbt, hun]
      refine ⟨?_, ?_, ?_⟩
      · funext q
        by_cases hq : q = p
        · subst hq; simp [Storage.removeAll, Storage.unlink]
        · simp [Storage.removeAll, Storage.unlink, hq]
      · simp only [freedBytes, distinctPaths, List.map_cons, List.sum_cons, hsz,
          sum_sizeOf_unlink]
        ring
      · simp only [existingPaths, distinctPaths, List.filter_cons, hp, Option.isSome_some,
          if_true, List.filter_filter, List.append_assoc, List.singleton_append]
        congr 2
        apply List.filter_congr
        intro x _
        by_cases hx : x = p
        · subst hx; simp [Storage.unlink]
        · simp [Storage.unlink, hx]

theorem afterGroups_closed (infoExt : List Char) (gs : List map_t) (storage : Storage)
    (b : Int) :
    (afterGroups infoExt gs (EvictState.start storage b)).storage
        = storage.removeAll (pairPaths infoExt gs.flatten) ∧
      (afterGroups infoExt gs (EvictState.start storage b)).bytesToRemove
        = b - freedBytes storage (pairPaths infoExt gs.flatten) ∧
      (afterGroups infoExt gs (EvictState.start storage b)).unlinked
        = existingPaths storage (pairPaths infoExt gs.flatten) := by
  obtain ⟨c1, c2, c3⟩ := core_afterGroups infoExt gs (EvictState.start storage b)
    (EvictState.start storage b) ⟨rfl, rfl, rfl⟩
  obtain ⟨u1, u2, u3⟩ := unlinkAll_closed (pairPaths infoExt gs.flatten)
    (EvictState.start storage b)
  rw [c1, c2, c3, u1, u2, u3]
  simp [EvictState.start]

/-- C5, as stated, fails in its last clause: with the suffix `.i`, a map
holding `a.i.i` at time 1 and `a.i` at time 2, files `a.i.i`, `a.i` and `a` of
5 bytes each and a target of 3 bytes, the loop handles the first group only,
and the data path of its entry is `a.i`, the info file of the entry of the
second group: that file is unlinked although its group is never handled. -/
theorem C5_later_file_unlinked :
    (evictLoop ['.', 'i'] overlapMap overlapMap (EvictState.start overlapStorage 3)).handled
      = [(1, ⟨['a', '.', 'i', '.', 'i'], 1⟩)] ∧
    (2, (⟨['a', '.', 'i'], 1⟩ : FS)) ∈ overlapMap ∧
    (2, (⟨['a', '.', 'i'], 1⟩ : FS))
      ∉ (evictLoop ['.', 'i'] overlapMap overlapMap (EvictState.start overlapStorage 3)).handled ∧
    (evictLoop ['.', 'i'] overlapMap overlapMap (EvictState.start overlapStorage 3)).unlinked
      = [['a', '.', 'i', '.', 'i'], ['a', '.', 'i']] ∧
    overlapStorage ['a', '.', 'i'] = some 5 ∧
    (evictLoop ['.', 'i'] overlapMap overlapMap
      (EvictState.start overlapStorage 3)).storage ['a', '.', 'i'] = none := by
  decide

/-- C5, amended. On a map in key order and a target `bytesToRemove > 0`, the
eviction loop handles whole timestamp-groups, oldest first, and stops after
the first group at whose end `bytesToRemove <= 0`. There is a number `n` of
groups, the shortest prefix whose existing info and data files (each counted
once) total at least `bytesToRemove`, or all groups when none does, such that:
the entries whose files the loop stats are exactly the members of the first
`n` groups; the files unlinked are exactly the existing info and data paths of
these entries, in order; every other path of the storage is unchanged; and the
remaining target is `bytesToRemove` minus the sizes of the files unlinked. -/
theorem C5_evict_whole_groups (infoExt : List Char) (fmap : map_t)
    (hsorted : fmap.Pairwise (fun a b => a.1 ≤ b.1)) (storage : Storage) (b : Int)
    (hb : 0 < b) :
    (groupKeys (fmap.map Prod.fst)).Pairwise (· < ·) ∧
    ∃ n, n ≤ (groups fmap).length ∧
      (∀ m, m < n →
        freedBytes storage (pairPaths infoExt ((groups fmap).take m).flatten) < b) ∧
      (n = (groups fmap).length ∨
        b ≤ freedBytes storage (pairPaths infoExt ((groups fmap).take n).flatten)) ∧
      (evictLoop infoExt fmap fmap (EvictState.start storage b)).storage
        = storage.removeAll (pairPaths infoExt ((groups fmap).take n).flatten) ∧
      (evictLoop infoExt fmap fmap (EvictState.start storage b)).bytesToRemove
        = b - freedBytes storage (pairPaths infoExt ((groups fmap).take n).flatten) ∧
      (evictLoop infoExt fmap fmap (EvictState.start storage b)).unlinked
        = existingPaths storage (pairPaths infoExt ((groups fmap).take n).flatten) ∧
      ∀ x, x ∈ (evictLoop infoExt fmap fmap (EvictState.start storage b)).handled
        ↔ x ∈ ((groups fmap).take n).flatten := by
  obtain ⟨hasc, n, hn, hmin, hstop, h1, h2, h3, h4⟩ :=
    evictLoop_take infoExt fmap hsorted storage b hb
  refine ⟨hasc, n, hn, ?_, ?_, ?_, ?_, ?_, h4⟩
  · intro m hm
    have := hmin m hm
    rw [(afterGroups_closed infoExt _ storage b).2.1] at this
    omega
  · rcases hstop with h | h
    · exact Or.inl h
    · rw [(afterGroups_closed infoExt _ storage b).2.1] at h
      exact Or.inr (by omega)
  · rw [h1, (afterGroups_closed infoExt _ storage b).1]
  · rw [h2, (afterGroups_closed infoExt _ storage b).2.1]
  · rw [h3, (afterGroups_closed infoExt _ storage b).2.2]

/-- C5, amended, on a map with `a.i` and `b.i` at time 1 and `c.i` at time 2,
the suffix `.i`, a storage in which each info and data file has 4 bytes, and a
target of 10 bytes: exactly the first group is handled, the four files `a.i`,
`a`, `b.i`, `b` are unlinked in this order, `c.i` and `c` stay, and the
remaining target is -6. -/
theorem C5_evict_whole_groups_witness :
    (evictLoop ['.', 'i'] twoGroupMap twoGroupMap (EvictState.start twoGroupStorage 10)).storage
      = twoGroupStorage.removeAll [['a', '.', 'i'], ['a'], ['b', '.', 'i'], ['b']] ∧
    (evictLoop ['.', 'i'] twoGroupMap twoGroupMap
      (EvictState.start twoGroupStorage 10)).bytesToRemove = -6 ∧
    (evictLoop ['.', 'i'] twoGroupMap twoGroupMap (EvictState.start twoGroupStorage 10)).unlinked
      = [['a', '.', 'i'], ['a'], ['b', '.', 'i'], ['b']] ∧
    (∀ x,
      x ∈ (evictLoop ['.', 'i'] twoGroupMap twoGroupMap
            (EvictState.start twoGroupStorage 10)).handled
        ↔ x ∈ [(1, (⟨['a', '.', 'i'], 3⟩ : FS)), (1, ⟨['b', '.', 'i'], 2⟩)]) ∧
    (evictLoop ['.', 'i'] twoGroupMap twoGroupMap
      (EvictState.start twoGroupStorage 10)).storage ['c', '.', 'i'] = some 4 ∧
    (evictLoop ['.', 'i'] twoGroupMap twoGroupMap
      (EvictState.start twoGroupStorage 10)).storage ['c'] = some 4 := by
  obtain ⟨_, n, hn, hmin, hstop, h1, h2, h3, h4⟩ :=
    C5_evict_whole_groups ['.', 'i'] twoGroupMap (by decide) twoGroupStorage 10 (by decide)
  have hlen : (groups twoGroupMap).length = 2 := by decide
  have hf0 : freedBytes twoGroupStorage
      (pairPaths ['.', 'i'] ((groups twoGroupMap).take 0).flatten) = 0 := by decide
  have hf1 : freedBytes twoGroupStorage
      (pairPaths ['.', 'i'] ((groups twoGroupMap).take 1).flatten) = 16 := by decide
  have hn1 : n = 1 := by
    rw [hlen] at hn hstop
    interval_cases n
    · rw [hf0] at hstop
      omega
    · rfl
    · have := hmin 1 (by decide)
      rw [hf1] at this
      omega
  subst hn1
  have hp : pairPaths ['.', 'i'] ((groups twoGroupMap).take 1).flatten
      = [['a', '.', 'i'], ['a'], ['b', '.', 'i'], ['b']] := by decide
  have he : existingPaths twoGroupStorage [['a', '.', 'i'], ['a'], ['b', '.', 'i'], ['b']]
      = [['a', '.', 'i'], ['a'], ['b', '.', 'i'], ['b']] := by decide
  have hg : ((groups twoGroupMap).take 1).flatten
      = [(1, (⟨['a', '.', 'i'], 3⟩ : FS)), (1, ⟨['b', '.', 'i'], 2⟩)] := by decide
  rw [hf1] at h2
  rw [hp] at h1 h3
  rw [he] at h3
  rw [hg] at h4
  refine ⟨h1, by rw [h2]; decide, h3, h4, ?_, ?_⟩
  · rw [h1]; decide
  · rw [h1]; decide

end XrdFileCache
